import Mathlib

/-!
# Linear memory of go2dotnet (`gowasm2csharp/mem.go`)

A shallow embedding of the `Mem` class that `mem.go` emits, and of the snapshot
writer `writeMemInitData`.

Modelling conventions.

* A byte is a `Fin 256`; the managed array `byte[] bytes` is a `List Byte`.
* The 32-bit `int` of the class is an `Int`, wrapped explicitly by `wrap32`
  wherever the class computes with it (`unchecked` arithmetic is the default of
  the target language).
* `fixed (byte* ptr = &this.bytes[addr])` checks the index `addr` only; the
  dereference `*(T*)ptr` then touches `sizeof(T)` bytes without any check.  The
  bytes are laid out least significant first (the host is little-endian, as
  every platform the emitted class runs on).  A dereference that leaves the
  array has no defined behaviour: it is the outcome `Outcome.undefined`.
* A floating-point value is represented by its IEEE-754 bit pattern: the
  accessors copy the bits of the value and do nothing else.
* Allocation is assumed to succeed.
* The file system of the snapshot writer is a parameter, the largest size
  `limit` of a file; creating the file and writing within `limit` are assumed
  to succeed.
-/

namespace Mem

/-- One byte of the buffer. -/
abbrev Byte := Fin 256

/-- The exceptions the class can raise. -/
inductive Exn where
  | indexOutOfRange
  | argumentOutOfRange
  | argument
  deriving DecidableEq, Repr

/-- The result of one call: a value, a raised exception (the buffer is then
as it was before the call), or an unchecked access outside the array. -/
inductive Outcome (α : Type) where
  | ok (a : α)
  | throws (e : Exn)
  | undefined
  deriving DecidableEq, Repr

/-- Apply a function to the value of a successful outcome. -/
def Outcome.map {α β : Type} (f : α → β) : Outcome α → Outcome β
  | .ok a => .ok (f a)
  | .throws e => .throws e
  | .undefined => .undefined

/-- The constant `PageSize = 64 * 1024`. -/
def PageSize : Nat := 64 * 1024

/-- Wrap an integer to the 32-bit signed range (unchecked `int` arithmetic and
the unchecked conversion `(int)x`). -/
def wrap32 (x : Int) : Int := (x + 2 ^ 31) % 2 ^ 32 - 2 ^ 31

/-- The signed reading of a `w`-bit pattern. -/
def toSigned (w : Nat) (n : Nat) : Int :=
  if n < 2 ^ (w - 1) then (n : Int) else (n : Int) - 2 ^ w

/-- The `w`-bit two's-complement pattern of an integer. -/
def toUnsigned (w : Nat) (v : Int) : Nat := (v % 2 ^ w).toNat

/-- The number a run of bytes denotes, least significant byte first. -/
def leDecode : List Byte → Nat
  | [] => 0
  | b :: bs => b.val + 256 * leDecode bs

/-- The `k` low bytes of a number, least significant byte first. -/
def leEncode : Nat → Nat → List Byte
  | 0, _ => []
  | k + 1, n => ⟨n % 256, Nat.mod_lt n (by decide)⟩ :: leEncode k (n / 256)

/-- The `k` bytes of a buffer that start at index `a`. -/
def readBytes (bs : List Byte) (a k : Nat) : List Byte := (bs.drop a).take k

/-- Overwrite the bytes of a buffer that start at index `a` with `data`. -/
def writeBytes (bs : List Byte) (a : Nat) (data : List Byte) : List Byte :=
  bs.take a ++ data ++ bs.drop (a + data.length)

end Mem

/-- The state of the class `Mem`: its only field, `private byte[] bytes`. -/
structure Mem where
  bytes : List Mem.Byte
  deriving DecidableEq, Repr

namespace Mem

/-- The bounds check of `this.bytes[addr]`. -/
def inRange (m : Mem) (addr : Int) : Bool :=
  decide (0 ≤ addr) && decide (addr < (m.bytes.length : Int))

/-- `fixed (byte* ptr = &this.bytes[addr]) { return *(T*)ptr; }` for a type of
`k` bytes: the index `addr` is checked, the `k` bytes read are not. -/
def loadRaw (m : Mem) (addr : Int) (k : Nat) : Outcome Nat :=
  if inRange m addr then
    if addr.toNat + k ≤ m.bytes.length then
      .ok (leDecode (readBytes m.bytes addr.toNat k))
    else .undefined
  else .throws .indexOutOfRange

/-- `fixed (byte* ptr = &this.bytes[addr]) { *(T*)ptr = val; }` for a type of
`k` bytes whose bit pattern is `n`. -/
def storeRaw (m : Mem) (addr : Int) (k : Nat) (n : Nat) : Outcome Mem :=
  if inRange m addr then
    if addr.toNat + k ≤ m.bytes.length then
      .ok ⟨writeBytes m.bytes addr.toNat (leEncode k n)⟩
    else .undefined
  else .throws .indexOutOfRange

/-- `Array.Resize(ref bytes, n)` for `n ≥ 0`: the first `n` bytes are kept and
the rest is zero. -/
def resize (bs : List Byte) (n : Nat) : List Byte :=
  bs.take n ++ List.replicate (n - bs.length) 0

/-- The property `Size`: `this.bytes.Length / PageSize`. -/
def Size (m : Mem) : Int := (m.bytes.length : Int) / (PageSize : Int)

/-- The method `Grow`: the new length is computed in 32-bit arithmetic, and
`Array.Resize` raises `ArgumentOutOfRangeException` on a negative length.
The result is the previous size and the new state. -/
def Grow (m : Mem) (delta : Int) : Outcome (Int × Mem) :=
  let prevSize := m.Size
  let newLen := wrap32 (wrap32 (prevSize + delta) * (PageSize : Int))
  if newLen < 0 then .throws .argumentOutOfRange
  else .ok (prevSize, ⟨resize m.bytes newLen.toNat⟩)

/-- `LoadInt8`: `(sbyte)this.bytes[addr]`. -/
def LoadInt8 (m : Mem) (addr : Int) : Outcome Int :=
  if inRange m addr then
    match m.bytes.get? addr.toNat with
    | some b => .ok (toSigned 8 b.val)
    | none => .throws .indexOutOfRange
  else .throws .indexOutOfRange

/-- `LoadUint8`: `this.bytes[addr]`. -/
def LoadUint8 (m : Mem) (addr : Int) : Outcome Nat :=
  if inRange m addr then
    match m.bytes.get? addr.toNat with
    | some b => .ok b.val
    | none => .throws .indexOutOfRange
  else .throws .indexOutOfRange

/-- `LoadInt16`: `*(short*)ptr`. -/
def LoadInt16 (m : Mem) (addr : Int) : Outcome Int :=
  (loadRaw m addr 2).map (toSigned 16)

/-- `LoadUint16`: `*(ushort*)ptr`. -/
def LoadUint16 (m : Mem) (addr : Int) : Outcome Nat := loadRaw m addr 2

/-- `LoadInt32`: `*(int*)ptr`. -/
def LoadInt32 (m : Mem) (addr : Int) : Outcome Int :=
  (loadRaw m addr 4).map (toSigned 32)

/-- `LoadUint32`: `*(uint*)ptr`. -/
def LoadUint32 (m : Mem) (addr : Int) : Outcome Nat := loadRaw m addr 4

/-- `LoadInt64`: `*(long*)ptr`. -/
def LoadInt64 (m : Mem) (addr : Int) : Outcome Int :=
  (loadRaw m addr 8).map (toSigned 64)

/-- `LoadFloat32`: `*(float*)ptr`; the result is the bit pattern read. -/
def LoadFloat32 (m : Mem) (addr : Int) : Outcome Nat := loadRaw m addr 4

/-- `LoadFloat64`: `*(double*)ptr`; the result is the bit pattern read. -/
def LoadFloat64 (m : Mem) (addr : Int) : Outcome Nat := loadRaw m addr 8

/-- `StoreInt8`: `this.bytes[addr] = (byte)val`. -/
def StoreInt8 (m : Mem) (addr : Int) (val : Int) : Outcome Mem :=
  if inRange m addr then
    .ok ⟨m.bytes.set addr.toNat ⟨toUnsigned 8 val % 256, Nat.mod_lt _ (by decide)⟩⟩
  else .throws .indexOutOfRange

/-- `StoreInt16`: `*(short*)ptr = val`. -/
def StoreInt16 (m : Mem) (addr : Int) (val : Int) : Outcome Mem :=
  storeRaw m addr 2 (toUnsigned 16 val)

/-- `StoreInt32`: `*(int*)ptr = val`. -/
def StoreInt32 (m : Mem) (addr : Int) (val : Int) : Outcome Mem :=
  storeRaw m addr 4 (toUnsigned 32 val)

/-- `StoreInt64`: `*(long*)ptr = val`. -/
def StoreInt64 (m : Mem) (addr : Int) (val : Int) : Outcome Mem :=
  storeRaw m addr 8 (toUnsigned 64 val)

/-- `StoreFloat32`: `*(float*)ptr = val`, with `bits` the bit pattern of `val`. -/
def StoreFloat32 (m : Mem) (addr : Int) (bits : Nat) : Outcome Mem :=
  storeRaw m addr 4 bits

/-- `StoreFloat64`: `*(double*)ptr = val`, with `bits` the bit pattern of `val`. -/
def StoreFloat64 (m : Mem) (addr : Int) (bits : Nat) : Outcome Mem :=
  storeRaw m addr 8 bits

/-- Sequence two calls: the second runs only when the first returned. -/
def Outcome.bind {α β : Type} (x : Outcome α) (f : α → Outcome β) : Outcome β :=
  match x with
  | .ok a => f a
  | .throws e => .throws e
  | .undefined => .undefined

/-- `StoreBytes`: `Array.Copy(bytes, 0, this.bytes, addr, bytes.Length)`, which
validates its arguments before it copies anything. -/
def StoreBytes (m : Mem) (addr : Int) (data : List Byte) : Outcome Mem :=
  if addr < 0 then .throws .argumentOutOfRange
  else if (m.bytes.length : Int) < addr + (data.length : Int) then .throws .argument
  else .ok ⟨writeBytes m.bytes addr.toNat data⟩

/-- An `ArraySegment<byte>`: the array it views, an offset and a count. -/
structure ArraySegment where
  array : List Byte
  offset : Int
  count : Int
  deriving DecidableEq, Repr

/-- The bytes an `ArraySegment<byte>` spans. -/
def ArraySegment.contents (v : ArraySegment) : List Byte :=
  readBytes v.array v.offset.toNat v.count.toNat

/-- The constructor `new ArraySegment<byte>(array, offset, count)` with its
argument validation. -/
def newArraySegment (array : List Byte) (offset count : Int) : Outcome ArraySegment :=
  if offset < 0 ∨ count < 0 then .throws .argumentOutOfRange
  else if (array.length : Int) - offset < count then .throws .argument
  else .ok ⟨array, offset, count⟩

/-- `LoadSlice`: two 64-bit loads, each converted by `(int)`, then the view. -/
def LoadSlice (m : Mem) (addr : Int) : Outcome ArraySegment :=
  (LoadInt64 m addr).bind fun array =>
  (LoadInt64 m (wrap32 (addr + 8))).bind fun len =>
  newArraySegment m.bytes (wrap32 array) (wrap32 len)

/-- `LoadSliceDirectly`: the view for an offset and a count already decoded. -/
def LoadSliceDirectly (m : Mem) (array : Int) (len : Int) : Outcome ArraySegment :=
  newArraySegment m.bytes (wrap32 array) len

/-- `Encoding.UTF8.GetString(bytes, index, count)`: the range is validated and
the bytes of the range are handed to the decoder `decode`, which is the UTF-8
decoder of the runtime library. -/
def GetString {σ : Type} (decode : List Byte → σ) (bytes : List Byte)
    (index count : Int) : Outcome σ :=
  if index < 0 ∨ count < 0 then .throws .argumentOutOfRange
  else if (bytes.length : Int) - index < count then .throws .argumentOutOfRange
  else .ok (decode (readBytes bytes index.toNat count.toNat))

/-- `LoadString`: the descriptor is decoded as in `LoadSlice`, then the bytes
are decoded as text. -/
def LoadString {σ : Type} (decode : List Byte → σ) (m : Mem) (addr : Int) : Outcome σ :=
  (LoadInt64 m addr).bind fun saddr =>
  (LoadInt64 m (wrap32 (addr + 8))).bind fun len =>
  GetString decode m.bytes (wrap32 saddr) (wrap32 len)

/-- A `Stream` being read: the bytes still to come, and for each coming call of
`Read` a number `chunk k`; the call hands over at most `chunk k + 1` bytes. -/
structure Stream where
  data : List Byte
  chunk : Nat → Nat

/-- `stream.Read(dst, offset, count)`: some bytes, at least one while data
remain and `count` is positive, are copied to `dst` at `offset`; the result is
the number of bytes copied, the buffer and the stream after the call. -/
def Stream.Read (s : Stream) (dst : List Byte) (offset count : Nat) :
    Nat × List Byte × Stream :=
  let r := min (min (s.chunk 0 + 1) count) s.data.length
  (r, writeBytes dst offset (s.data.take r), ⟨s.data.drop r, fun k => s.chunk (k + 1)⟩)

/-- The loop of `ReadFull`, from the current `offset`. -/
def ReadFullLoop (dst : List Byte) (offset : Nat) (s : Stream) : List Byte :=
  if 0 < (s.Read dst offset (dst.length - offset)).1 then
    ReadFullLoop (s.Read dst offset (dst.length - offset)).2.1
      (offset + (s.Read dst offset (dst.length - offset)).1)
      (s.Read dst offset (dst.length - offset)).2.2
  else dst
termination_by s.data.length
decreasing_by
  rename_i hread
  simp only [Stream.Read, List.length_drop] at hread ⊢
  omega

/-- `ReadFull(dst, stream)`: read into `dst` from offset 0 until a read returns
nothing. -/
def ReadFull (dst : List Byte) (s : Stream) : List Byte := ReadFullLoop dst 0 s

/-- The constructor `Mem()` for the page count `initPageNum` of the template:
a zero buffer of `initPageNum * PageSize` bytes filled from the embedded
resource.  The size `{{.InitPageNum}} * PageSize` is an `int` constant
expression: when the product is `2^31` or more it overflows, the emitted class
is not a program and no array of that length exists, so there is no memory.
Without the resource the process exits and there is no memory either. -/
def ctor (initPageNum : Nat) (stream : Option Stream) : Option Mem :=
  if initPageNum * PageSize < 2 ^ 31 then
    match stream with
    | none => none
    | some s => some ⟨ReadFull (List.replicate (initPageNum * PageSize) 0) s⟩
  else none

/-- One call of an operation of the class, with its arguments. -/
inductive Op where
  | Grow (delta : Int)
  | LoadInt8 (addr : Int)
  | LoadUint8 (addr : Int)
  | LoadInt16 (addr : Int)
  | LoadUint16 (addr : Int)
  | LoadInt32 (addr : Int)
  | LoadUint32 (addr : Int)
  | LoadInt64 (addr : Int)
  | LoadFloat32 (addr : Int)
  | LoadFloat64 (addr : Int)
  | StoreInt8 (addr : Int) (val : Int)
  | StoreInt16 (addr : Int) (val : Int)
  | StoreInt32 (addr : Int) (val : Int)
  | StoreInt64 (addr : Int) (val : Int)
  | StoreFloat32 (addr : Int) (bits : Nat)
  | StoreFloat64 (addr : Int) (bits : Nat)
  | StoreBytes (addr : Int) (data : List Byte)
  | LoadSlice (addr : Int)
  | LoadSliceDirectly (array : Int) (len : Int)
  | LoadString (addr : Int)
  deriving DecidableEq, Repr

/-- The state a call leaves behind, as an outcome: a call that returns leaves
its new state, a call that throws or is undefined is reported as such. -/
def Op.exec (m : Mem) : Op → Outcome Mem
  | .Grow delta => (Mem.Grow m delta).map fun r => r.2
  | .LoadInt8 addr => (Mem.LoadInt8 m addr).map fun _ => m
  | .LoadUint8 addr => (Mem.LoadUint8 m addr).map fun _ => m
  | .LoadInt16 addr => (Mem.LoadInt16 m addr).map fun _ => m
  | .LoadUint16 addr => (Mem.LoadUint16 m addr).map fun _ => m
  | .LoadInt32 addr => (Mem.LoadInt32 m addr).map fun _ => m
  | .LoadUint32 addr => (Mem.LoadUint32 m addr).map fun _ => m
  | .LoadInt64 addr => (Mem.LoadInt64 m addr).map fun _ => m
  | .LoadFloat32 addr => (Mem.LoadFloat32 m addr).map fun _ => m
  | .LoadFloat64 addr => (Mem.LoadFloat64 m addr).map fun _ => m
  | .StoreInt8 addr val => Mem.StoreInt8 m addr val
  | .StoreInt16 addr val => Mem.StoreInt16 m addr val
  | .StoreInt32 addr val => Mem.StoreInt32 m addr val
  | .StoreInt64 addr val => Mem.StoreInt64 m addr val
  | .StoreFloat32 addr bits => Mem.StoreFloat32 m addr bits
  | .StoreFloat64 addr bits => Mem.StoreFloat64 m addr bits
  | .StoreBytes addr data => Mem.StoreBytes m addr data
  | .LoadSlice addr => (Mem.LoadSlice m addr).map fun _ => m
  | .LoadSliceDirectly array len => (Mem.LoadSliceDirectly m array len).map fun _ => m
  | .LoadString addr => (Mem.LoadString (fun bs => bs) m addr).map fun _ => m

/-- The state after a call: the new state when the call returns, the old
state when it throws, and none when the call is an undefined access. -/
def Op.after (m : Mem) (op : Op) : Option Mem :=
  match op.exec m with
  | .ok m1 => some m1
  | .throws _ => some m
  | .undefined => none

/-- The state after a sequence of calls, none once a call is undefined. -/
def run (m : Mem) : List Op → Option Mem
  | [] => some m
  | op :: ops =>
    match op.after m with
    | some m1 => run m1 ops
    | none => none

/-- The address and the width in bytes of a typed accessor call. -/
def Op.typed : Op → Option (Int × Nat)
  | .LoadInt8 addr => some (addr, 1)
  | .LoadUint8 addr => some (addr, 1)
  | .LoadInt16 addr => some (addr, 2)
  | .LoadUint16 addr => some (addr, 2)
  | .LoadInt32 addr => some (addr, 4)
  | .LoadUint32 addr => some (addr, 4)
  | .LoadInt64 addr => some (addr, 8)
  | .LoadFloat32 addr => some (addr, 4)
  | .LoadFloat64 addr => some (addr, 8)
  | .StoreInt8 addr _ => some (addr, 1)
  | .StoreInt16 addr _ => some (addr, 2)
  | .StoreInt32 addr _ => some (addr, 4)
  | .StoreInt64 addr _ => some (addr, 8)
  | .StoreFloat32 addr _ => some (addr, 4)
  | .StoreFloat64 addr _ => some (addr, 8)
  | _ => none

/-- The signed integer types that have both a typed store and a typed load. -/
inductive IntTy where
  | int8
  | int16
  | int32
  | int64
  deriving DecidableEq, Repr

/-- The size in bytes, `sizeof(T)`. -/
def IntTy.size : IntTy → Nat
  | .int8 => 1
  | .int16 => 2
  | .int32 => 4
  | .int64 => 8

/-- Membership of an integer in the range of values of the type. -/
def IntTy.holds (T : IntTy) (v : Int) : Prop :=
  -2 ^ (8 * T.size - 1) ≤ v ∧ v < 2 ^ (8 * T.size - 1)

/-- The store method of the type. -/
def IntTy.Store : IntTy → Mem → Int → Int → Outcome Mem
  | .int8 => StoreInt8
  | .int16 => StoreInt16
  | .int32 => StoreInt32
  | .int64 => StoreInt64

/-- The load method of the type. -/
def IntTy.Load : IntTy → Mem → Int → Outcome Int
  | .int8 => LoadInt8
  | .int16 => LoadInt16
  | .int32 => LoadInt32
  | .int64 => LoadInt64

/-- The address and the width in bytes of a typed store call. -/
def Op.storeAt : Op → Option (Int × Nat)
  | .StoreInt8 addr _ => some (addr, 1)
  | .StoreInt16 addr _ => some (addr, 2)
  | .StoreInt32 addr _ => some (addr, 4)
  | .StoreInt64 addr _ => some (addr, 8)
  | .StoreFloat32 addr _ => some (addr, 4)
  | .StoreFloat64 addr _ => some (addr, 8)
  | _ => none

/-- The value of the byte at index `i` of the buffer (0 past its end). -/
def byteAt (m : Mem) (i : Nat) : Nat := (m.bytes.getD i 0).val

end Mem

/-! ## The snapshot writer (the generator side of `mem.go`) -/

/-- The struct `wasmData`: one data segment, an offset and its bytes. -/
structure wasmData where
  Offset : Int
  Data : List Mem.Byte
  deriving DecidableEq, Repr

/-- The state of the file after a write or after `writeMemInitData`: the call
returned nil (`done`) or an error (`failed`), and the content the file then
has. -/
inductive Written where
  | done (file : List Mem.Byte)
  | failed (file : List Mem.Byte)
  deriving DecidableEq, Repr

/-- The bytes `b` placed at position `off` of a file, the file growing as
needed, a gap between the old end of the file and `off` reading as zero
bytes. -/
def placeAt (file : List Mem.Byte) (b : List Mem.Byte) (off : Nat) : List Mem.Byte :=
  Mem.writeBytes (file ++ List.replicate (off - file.length) 0) off b

/-- The call `f.WriteAt(b, off)` on a file whose content is `file`, on a system
whose largest file has `limit` bytes.  A negative offset is an error (an offset
of `2^63` or more is no `int64`).  For an empty `b` nothing is written and the
call returns nil.  A write that would end at `2^63` or beyond is refused as a
whole; a write that ends within `limit` places its bytes; a write that starts
below `limit` and ends beyond it places the bytes that fit and then fails; a
write that starts at `limit` or beyond fails with nothing written. -/
def WriteAt (limit : Nat) (file : List Mem.Byte) (b : List Mem.Byte) (off : Int) : Written :=
  if off < 0 ∨ 2 ^ 63 ≤ off then .failed file
  else if b.length = 0 then .done file
  else if 2 ^ 63 ≤ off + (b.length : Int) then .failed file
  else if off + (b.length : Int) ≤ (limit : Int) then .done (placeAt file b off.toNat)
  else if off < (limit : Int) then
    .failed (placeAt file (b.take (limit - off.toNat)) off.toNat)
  else .failed file

/-- The loop of `writeMemInitData` over the segments, from the file content
`file`: the first write that returns an error ends the function. -/
def writeMemInitData.loop (limit : Nat) (file : List Mem.Byte) : List wasmData → Written
  | [] => .done file
  | d :: ds =>
    match WriteAt limit file d.Data d.Offset with
    | .done file1 => writeMemInitData.loop limit file1 ds
    | .failed file1 => .failed file1

/-- The function `writeMemInitData` on a system whose largest file has `limit`
bytes: `os.Create` gives an empty file, and the segments are written to it in
list order at their offsets.  The result tells whether the function returned
nil or an error, with the content of the file `MemInitData` it leaves. -/
def writeMemInitData (limit : Nat) (data : List wasmData) : Written :=
  writeMemInitData.loop limit [] data

/-- The write of a segment is accepted on a system whose largest file has
`limit` bytes: its offset is a non-negative `int64`, and if it has bytes it
ends within `limit` and below `2^63`. -/
def wasmData.fits (limit : Nat) (d : wasmData) : Prop :=
  0 ≤ d.Offset ∧ d.Offset < 2 ^ 63 ∧
    (d.Data.length ≠ 0 → d.Offset + (d.Data.length : Int) ≤ (limit : Int) ∧
      d.Offset + (d.Data.length : Int) < 2 ^ 63)

/-- Fitting is decidable: comparisons of integers. -/
instance wasmData.decidableFits (limit : Nat) (d : wasmData) : Decidable (d.fits limit) :=
  inferInstanceAs (Decidable (0 ≤ d.Offset ∧ d.Offset < 2 ^ 63 ∧
    (d.Data.length ≠ 0 → d.Offset + (d.Data.length : Int) ≤ (limit : Int) ∧
      d.Offset + (d.Data.length : Int) < 2 ^ 63)))

/-- The range of a segment contains the position `i`. -/
def wasmData.covers (d : wasmData) (i : Nat) : Prop :=
  d.Offset ≤ (i : Int) ∧ (i : Int) < d.Offset + (d.Data.length : Int)

/-- Covering is decidable: two comparisons of integers. -/
instance wasmData.decidableCovers (d : wasmData) (i : Nat) : Decidable (d.covers i) :=
  inferInstanceAs
    (Decidable (d.Offset ≤ (i : Int) ∧ (i : Int) < d.Offset + (d.Data.length : Int)))

/-- The specification side of the snapshot: the segments applied in list order
to a buffer, each overwriting the bytes at its offset. -/
def applySegments (buf : List Mem.Byte) : List wasmData → List Mem.Byte
  | [] => buf
  | d :: ds => applySegments (Mem.writeBytes buf d.Offset.toNat d.Data) ds

/-! ## Lemmas on byte runs -/

namespace Mem

theorem length_leEncode (k n : Nat) : (leEncode k n).length = k := by
  induction k generalizing n with
  | zero => rfl
  | succ k ih => simp [leEncode, ih]

theorem leDecode_leEncode (k n : Nat) : leDecode (leEncode k n) = n % 256 ^ k := by
  induction k generalizing n with
  | zero => simp [leEncode, leDecode, Nat.mod_one]
  | succ k ih =>
    simp only [leEncode, leDecode, ih]
    rw [pow_succ, mul_comm (256 ^ k) 256, Nat.mod_mul]

theorem getElem?_leEncode (k n i : Nat) (h : i < k) :
    ((leEncode k n)[i]?).map Fin.val = some (n / 256 ^ i % 256) := by
  induction k generalizing n i with
  | zero => omega
  | succ k ih =>
    cases i with
    | zero => simp [leEncode]
    | succ i =>
      simp only [leEncode, List.getElem?_cons_succ]
      rw [ih (n / 256) i (by omega), Nat.div_div_eq_div_mul, pow_succ, mul_comm]

theorem length_writeBytes (bs : List Byte) (a : Nat) (data : List Byte)
    (h : a + data.length ≤ bs.length) : (writeBytes bs a data).length = bs.length := by
  simp only [writeBytes, List.length_append, List.length_take, List.length_drop]
  omega

theorem readBytes_writeBytes (bs : List Byte) (a : Nat) (data : List Byte)
    (h : a + data.length ≤ bs.length) :
    readBytes (writeBytes bs a data) a data.length = data := by
  have ha : (bs.take a).length = a := by simp [List.length_take]; omega
  simp only [readBytes, writeBytes, List.append_assoc]
  rw [List.drop_append_of_le_length (by omega), List.drop_of_length_le (by omega)]
  simp

theorem getElem?_writeBytes_lt (bs : List Byte) (a : Nat) (data : List Byte) (i : Nat)
    (h : a + data.length ≤ bs.length) (hi : i < a) :
    (writeBytes bs a data)[i]? = bs[i]? := by
  have ha : (bs.take a).length = a := by simp [List.length_take]; omega
  simp only [writeBytes, List.append_assoc]
  rw [List.getElem?_append_left (by omega), List.getElem?_take_of_lt hi]

theorem getElem?_writeBytes_ge (bs : List Byte) (a : Nat) (data : List Byte) (i : Nat)
    (h : a + data.length ≤ bs.length) (hi : a + data.length ≤ i) :
    (writeBytes bs a data)[i]? = bs[i]? := by
  have ha : (bs.take a).length = a := by simp [List.length_take]; omega
  simp only [writeBytes, List.append_assoc]
  rw [List.getElem?_append_right (by omega), List.getElem?_append_right (by omega),
    List.getElem?_drop, ha]
  congr 1
  omega

theorem getElem?_writeBytes_mid (bs : List Byte) (a : Nat) (data : List Byte) (i : Nat)
    (h : a + data.length ≤ bs.length) (hi : i < data.length) :
    (writeBytes bs a data)[a + i]? = data[i]? := by
  have ha : (bs.take a).length = a := by simp [List.length_take]; omega
  simp only [writeBytes, List.append_assoc]
  rw [List.getElem?_append_right (by omega), List.getElem?_append_left (by omega), ha]
  congr 1
  omega


/-! ## Typed stores and loads: round trip -/

theorem inRange_iff (m : Mem) (addr : Int) :
    inRange m addr = true ↔ 0 ≤ addr ∧ addr < (m.bytes.length : Int) := by
  simp [inRange]

theorem toSigned_toUnsigned8 (v : Int) (h1 : -2 ^ 7 ≤ v) (h2 : v < 2 ^ 7) :
    toSigned 8 (toUnsigned 8 v) = v := by
  unfold toSigned toUnsigned
  norm_num at h1 h2 ⊢
  split <;> omega

theorem toSigned_toUnsigned16 (v : Int) (h1 : -2 ^ 15 ≤ v) (h2 : v < 2 ^ 15) :
    toSigned 16 (toUnsigned 16 v) = v := by
  unfold toSigned toUnsigned
  norm_num at h1 h2 ⊢
  split <;> omega

theorem toSigned_toUnsigned32 (v : Int) (h1 : -2 ^ 31 ≤ v) (h2 : v < 2 ^ 31) :
    toSigned 32 (toUnsigned 32 v) = v := by
  unfold toSigned toUnsigned
  norm_num at h1 h2 ⊢
  split <;> omega

theorem toSigned_toUnsigned64 (v : Int) (h1 : -2 ^ 63 ≤ v) (h2 : v < 2 ^ 63) :
    toSigned 64 (toUnsigned 64 v) = v := by
  unfold toSigned toUnsigned
  norm_num at h1 h2 ⊢
  split <;> omega

theorem toUnsigned_lt (w : Nat) (v : Int) : toUnsigned w v < 2 ^ w := by
  unfold toUnsigned
  have h : v % 2 ^ w < 2 ^ w := Int.emod_lt_of_pos v (by positivity)
  have h0 : 0 ≤ v % 2 ^ w := Int.emod_nonneg v (by positivity)
  zify
  rw [Int.toNat_of_nonneg h0]
  exact_mod_cast h

/-- A raw store of `k ≥ 1` bytes inside the buffer returns, and a raw load of
`k` bytes at the same address then reads the `k` low bytes stored. -/
theorem storeRaw_loadRaw (m : Mem) (addr : Int) (k n : Nat) (hk : 0 < k)
    (h0 : 0 ≤ addr) (h : addr + (k : Int) ≤ (m.bytes.length : Int)) :
    ∃ m1, storeRaw m addr k n = .ok m1 ∧ m1.bytes.length = m.bytes.length ∧
      loadRaw m1 addr k = .ok (n % 256 ^ k) := by
  have hr : inRange m addr = true := (inRange_iff m addr).2 ⟨h0, by omega⟩
  have hle : addr.toNat + k ≤ m.bytes.length := by omega
  have hlen : addr.toNat + (leEncode k n).length ≤ m.bytes.length := by
    rw [length_leEncode]; exact hle
  refine ⟨⟨writeBytes m.bytes addr.toNat (leEncode k n)⟩, ?_, ?_, ?_⟩
  · simp [storeRaw, hr, hle]
  · exact length_writeBytes _ _ _ hlen
  · have hr1 : inRange ⟨writeBytes m.bytes addr.toNat (leEncode k n)⟩ addr = true := by
      rw [inRange_iff, length_writeBytes _ _ _ hlen]
      exact ⟨h0, by omega⟩
    have hrd := readBytes_writeBytes m.bytes addr.toNat (leEncode k n) hlen
    rw [length_leEncode] at hrd
    simp only [loadRaw, hr1, length_writeBytes _ _ _ hlen, hle, if_true, hrd, leDecode_leEncode]


theorem storeInt8_loadInt8 (m : Mem) (addr v : Int) (h0 : 0 ≤ addr)
    (h : addr + 1 ≤ (m.bytes.length : Int)) (h1 : -2 ^ 7 ≤ v) (h2 : v < 2 ^ 7) :
    ∃ m1, StoreInt8 m addr v = .ok m1 ∧ LoadInt8 m1 addr = .ok v := by
  have hr : inRange m addr = true := (inRange_iff m addr).2 ⟨h0, by omega⟩
  have hlt : addr.toNat < m.bytes.length := by omega
  refine ⟨⟨m.bytes.set addr.toNat ⟨toUnsigned 8 v % 256, Nat.mod_lt _ (by decide)⟩⟩,
    by simp only [StoreInt8, hr, if_true], ?_⟩
  have hr1 : inRange ⟨m.bytes.set addr.toNat
      ⟨toUnsigned 8 v % 256, Nat.mod_lt _ (by decide)⟩⟩ addr = true := by
    rw [inRange_iff]
    simp only [List.length_set]
    exact ⟨h0, by omega⟩
  have hu : toUnsigned 8 v % 256 = toUnsigned 8 v :=
    Nat.mod_eq_of_lt (by simpa using toUnsigned_lt 8 v)
  rw [LoadInt8, if_pos hr1]
  simp only [List.get?_eq_getElem?, List.getElem?_set_self hlt, hu,
    toSigned_toUnsigned8 v h1 h2]

/-- C1. Store/Load round trip: for every memory state, every signed integer
type `T` of 8, 16, 32 or 64 bits, every value `v` of `T` and every address
`addr` with `0 ≤ addr` and `addr + sizeof(T) ≤ bytes.length`, aligned or not,
the store of `v` at `addr` returns and the load at `addr` from the state it
leaves returns exactly `v`. -/
theorem store_load_round_trip (T : IntTy) (m : Mem) (addr v : Int) (h0 : 0 ≤ addr)
    (h : addr + (T.size : Int) ≤ (m.bytes.length : Int)) (hv : T.holds v) :
    ∃ m1, T.Store m addr v = .ok m1 ∧ T.Load m1 addr = .ok v := by
  cases T
  · simp only [IntTy.holds, IntTy.size] at hv h
    exact storeInt8_loadInt8 m addr v h0 (by simpa using h) (by simpa using hv.1)
      (by simpa using hv.2)
  · simp only [IntTy.holds, IntTy.size] at hv h
    obtain ⟨m1, hs, _, hl⟩ := storeRaw_loadRaw m addr 2 (toUnsigned 16 v) (by decide) h0 h
    refine ⟨m1, hs, ?_⟩
    have hu : toUnsigned 16 v % 256 ^ 2 = toUnsigned 16 v :=
      Nat.mod_eq_of_lt (by simpa using toUnsigned_lt 16 v)
    simp only [IntTy.Load, LoadInt16, hl, hu, Outcome.map]
    rw [toSigned_toUnsigned16 v (by simpa using hv.1) (by simpa using hv.2)]
  · simp only [IntTy.holds, IntTy.size] at hv h
    obtain ⟨m1, hs, _, hl⟩ := storeRaw_loadRaw m addr 4 (toUnsigned 32 v) (by decide) h0 h
    refine ⟨m1, hs, ?_⟩
    have hu : toUnsigned 32 v % 256 ^ 4 = toUnsigned 32 v :=
      Nat.mod_eq_of_lt (by simpa using toUnsigned_lt 32 v)
    simp only [IntTy.Load, LoadInt32, hl, hu, Outcome.map]
    rw [toSigned_toUnsigned32 v (by simpa using hv.1) (by simpa using hv.2)]
  · simp only [IntTy.holds, IntTy.size] at hv h
    obtain ⟨m1, hs, _, hl⟩ := storeRaw_loadRaw m addr 8 (toUnsigned 64 v) (by decide) h0 h
    refine ⟨m1, hs, ?_⟩
    have hu : toUnsigned 64 v % 256 ^ 8 = toUnsigned 64 v :=
      Nat.mod_eq_of_lt (by simpa using toUnsigned_lt 64 v)
    simp only [IntTy.Load, LoadInt64, hl, hu, Outcome.map]
    rw [toSigned_toUnsigned64 v (by simpa using hv.1) (by simpa using hv.2)]

/-- Witness of C1: an unaligned 32-bit round trip of `-2` at address 3 of a
ten-byte buffer. -/
theorem store_load_round_trip_witness :
    ∃ m1, StoreInt32 ⟨[1, 2, 3, 4, 5, 6, 7, 8, 9, 10]⟩ 3 (-2) = .ok m1 ∧
      LoadInt32 m1 3 = .ok (-2) :=
  store_load_round_trip .int32 ⟨[1, 2, 3, 4, 5, 6, 7, 8, 9, 10]⟩ 3 (-2) (by decide)
    (by decide) (by unfold IntTy.holds IntTy.size; norm_num)


/-! ## Grow -/

theorem wrap32_of_range (x : Int) (h1 : -2 ^ 31 ≤ x) (h2 : x < 2 ^ 31) : wrap32 x = x := by
  unfold wrap32
  norm_num at h1 h2 ⊢
  omega

theorem Size_nonneg (m : Mem) : 0 ≤ m.Size := by
  unfold Size PageSize
  omega

/-- Without overflow the 32-bit computation of the new length in `Grow` is the
exact product. -/
theorem grow_newLen (m : Mem) (delta : Int) (h0 : 0 ≤ delta)
    (h : (m.Size + delta) * 65536 < 2 ^ 31) :
    wrap32 (wrap32 (m.Size + delta) * (PageSize : Int)) = (m.Size + delta) * 65536 := by
  have hs := Size_nonneg m
  norm_num at h
  have hp : ((PageSize : Nat) : Int) = 65536 := by norm_num [PageSize]
  rw [hp, wrap32_of_range (m.Size + delta) (by norm_num; omega) (by norm_num; omega),
    wrap32_of_range _ (by norm_num; omega) (by norm_num; omega)]

theorem length_resize (bs : List Byte) (n : Nat) : (resize bs n).length = n := by
  simp only [resize, List.length_append, List.length_take, List.length_replicate]
  omega

/-- Without overflow `Grow` returns the previous size and resizes the buffer to
the exact product. -/
theorem grow_ok (m : Mem) (delta : Int) (h0 : 0 ≤ delta)
    (h : (m.Size + delta) * 65536 < 2 ^ 31) :
    Grow m delta = .ok (m.Size, ⟨resize m.bytes ((m.Size + delta) * 65536).toNat⟩) := by
  have hs := Size_nonneg m
  simp only [Grow, grow_newLen m delta h0 h]
  rw [if_neg (by omega)]

/-- C2, amended. Grow size postcondition without overflow: for every memory
state and every `deltaPages ≥ 0` such that `(Size() + deltaPages) * 65536` is
below `2^31`, `Grow(deltaPages)` returns the size before the call and the size
after the call is the size before plus `deltaPages`. -/
theorem grow_size (m : Mem) (delta : Int) (h0 : 0 ≤ delta)
    (h : (m.Size + delta) * 65536 < 2 ^ 31) :
    ∃ m1, Grow m delta = .ok (m.Size, m1) ∧ m1.Size = m.Size + delta := by
  have hs := Size_nonneg m
  refine ⟨⟨resize m.bytes ((m.Size + delta) * 65536).toNat⟩, grow_ok m delta h0 h, ?_⟩
  have hp : ((PageSize : Nat) : Int) = 65536 := by norm_num [PageSize]
  generalize hS : m.Size = S at *
  simp only [Size, length_resize, hp]
  omega

/-- On any buffer of exactly one page, `Grow(65535)` wraps to the length 0. -/
theorem grow_one_page_wraps (bs : List Byte) (h : bs.length = 65536) :
    Size ⟨bs⟩ = 1 ∧ Grow ⟨bs⟩ 65535 = .ok (1, ⟨[]⟩) := by
  have hs : Size ⟨bs⟩ = 1 := by simp [Size, PageSize, h]
  refine ⟨hs, ?_⟩
  simp only [Grow, hs]
  simp [PageSize, wrap32, resize]

/-- Witness of C2 amended: growing the empty memory by three pages. -/
theorem grow_size_witness :
    ∃ m1, Grow ⟨[]⟩ 3 = .ok (Size ⟨[]⟩, m1) ∧ m1.Size = Size ⟨[]⟩ + 3 :=
  grow_size ⟨[]⟩ 3 (by decide) (by decide)

/-- Counterexample to C2 as stated: on a memory of one page, `Grow(65535)`
computes the length `65536 * 65536`, which wraps to 0 in 32 bits; the call
returns 1 and the size after it is 0, not `1 + 65535`. -/
theorem grow_size_counterexample :
    (0 : Int) ≤ 65535 ∧ Size ⟨List.replicate 65536 0⟩ = 1 ∧
      Grow ⟨List.replicate 65536 0⟩ 65535 = .ok (1, ⟨[]⟩) ∧
      Size ⟨[]⟩ ≠ Size ⟨List.replicate 65536 0⟩ + 65535 := by
  have hg := grow_one_page_wraps (List.replicate 65536 0) (List.length_replicate _ _)
  refine ⟨by decide, hg.1, hg.2, ?_⟩
  rw [hg.1]
  simp [Size, PageSize]

/-- C3, amended. Grow appends zeros without overflow: for every memory state of
a whole number of pages and every `deltaPages ≥ 0` such that
`(Size() + deltaPages) * 65536` is below `2^31`, the buffer after
`Grow(deltaPages)` is the buffer before the call followed by
`deltaPages * 65536` zero bytes: every byte below the old length is unchanged
and every byte from the old length up to the new length is zero. -/
theorem grow_appends_zeros (m : Mem) (delta : Int) (hv : m.bytes.length % PageSize = 0)
    (h0 : 0 ≤ delta) (h : (m.Size + delta) * 65536 < 2 ^ 31) :
    ∃ m1, Grow m delta = .ok (m.Size, m1) ∧
      m1.bytes = m.bytes ++ List.replicate (delta.toNat * 65536) 0 ∧
      (∀ i, i < m.bytes.length → m1.bytes[i]? = m.bytes[i]?) ∧
      (∀ i, m.bytes.length ≤ i → i < m.bytes.length + delta.toNat * 65536 →
        m1.bytes[i]? = some 0) := by
  have hs := Size_nonneg m
  have hlen : (m.bytes.length : Int) = m.Size * 65536 := by
    unfold Size
    unfold PageSize at *
    omega
  have hb : resize m.bytes ((m.Size + delta) * 65536).toNat
      = m.bytes ++ List.replicate (delta.toNat * 65536) 0 := by
    have h1 : ((m.Size + delta) * 65536).toNat = m.bytes.length + delta.toNat * 65536 := by
      omega
    rw [h1, resize, List.take_of_length_le (by omega)]
    congr 2
    omega
  refine ⟨⟨resize m.bytes ((m.Size + delta) * 65536).toNat⟩, grow_ok m delta h0 h, hb,
    ?_, ?_⟩
  · intro i hi
    simp only [hb]
    rw [List.getElem?_append_left hi]
  · intro i hi1 hi2
    simp only [hb]
    rw [List.getElem?_append_right hi1, List.getElem?_replicate]
    rw [if_pos (by omega)]

/-- Witness of C3 amended: growing the empty memory by one page. -/
theorem grow_appends_zeros_witness :
    ∃ m1, Grow ⟨[]⟩ 1 = .ok (Size ⟨[]⟩, m1) ∧
      m1.bytes = [] ++ List.replicate ((1 : Int).toNat * 65536) 0 ∧
      (∀ i, i < ([] : List Byte).length → m1.bytes[i]? = ([] : List Byte)[i]?) ∧
      (∀ i, ([] : List Byte).length ≤ i →
        i < ([] : List Byte).length + (1 : Int).toNat * 65536 → m1.bytes[i]? = some 0) :=
  grow_appends_zeros ⟨[]⟩ 1 (by decide) (by decide) (by decide)

/-- Counterexample to C3 as stated: on a memory of one page of bytes 7,
`Grow(65535)` returns normally and leaves the empty buffer, not the old page
followed by zero bytes. -/
theorem grow_appends_zeros_counterexample :
    (0 : Int) ≤ 65535 ∧
      Grow ⟨List.replicate 65536 7⟩ 65535 = .ok (1, ⟨[]⟩) ∧
      ([] : List Byte) ≠ List.replicate 65536 7 ++ List.replicate (65535 * 65536) 0 := by
  have hg := grow_one_page_wraps (List.replicate 65536 7) (List.length_replicate _ _)
  refine ⟨by decide, hg.2, ?_⟩
  intro hc
  have hl := congrArg List.length hc
  rw [List.length_append, List.length_replicate, List.length_replicate] at hl
  simp at hl


/-! ## The size over single calls -/

theorem map_const_ok {α : Type} (x : Outcome α) (m m1 : Mem)
    (h : (x.map fun _ => m) = .ok m1) : m1 = m := by
  cases x <;> simp [Outcome.map] at h
  exact h.symm

theorem storeRaw_ok_length (m m1 : Mem) (addr : Int) (k n : Nat)
    (h : storeRaw m addr k n = .ok m1) : m1.bytes.length = m.bytes.length := by
  unfold storeRaw at h
  split at h
  · split at h
    · rename_i hle
      simp only [Outcome.ok.injEq] at h
      rw [← h]
      exact length_writeBytes _ _ _ (by rw [length_leEncode]; exact hle)
    · simp at h
  · simp at h

theorem StoreInt8_ok_length (m m1 : Mem) (addr v : Int)
    (h : StoreInt8 m addr v = .ok m1) : m1.bytes.length = m.bytes.length := by
  unfold StoreInt8 at h
  split at h
  · simp only [Outcome.ok.injEq] at h
    rw [← h]
    simp
  · simp at h

theorem StoreBytes_ok_length (m m1 : Mem) (addr : Int) (data : List Byte)
    (h : StoreBytes m addr data = .ok m1) : m1.bytes.length = m.bytes.length := by
  unfold StoreBytes at h
  split at h
  · simp at h
  · split at h
    · simp at h
    · simp only [Outcome.ok.injEq] at h
      rw [← h]
      exact length_writeBytes _ _ _ (by omega)

/-- A call other than `Grow` that returns leaves the length of the buffer as it
was. -/
theorem exec_ok_length (m m1 : Mem) (op : Op) (hg : ∀ delta, op ≠ .Grow delta)
    (h : op.exec m = .ok m1) : m1.bytes.length = m.bytes.length := by
  cases op with
  | Grow delta => exact absurd rfl (hg delta)
  | StoreInt8 addr v => exact StoreInt8_ok_length m m1 addr v h
  | StoreInt16 addr v => exact storeRaw_ok_length m m1 addr 2 _ h
  | StoreInt32 addr v => exact storeRaw_ok_length m m1 addr 4 _ h
  | StoreInt64 addr v => exact storeRaw_ok_length m m1 addr 8 _ h
  | StoreFloat32 addr v => exact storeRaw_ok_length m m1 addr 4 _ h
  | StoreFloat64 addr v => exact storeRaw_ok_length m m1 addr 8 _ h
  | StoreBytes addr data => exact StoreBytes_ok_length m m1 addr data h
  | _ => rw [map_const_ok _ m m1 h]

/-- The state after a call other than `Grow` has the length of the state
before it. -/
theorem after_length (m m1 : Mem) (op : Op) (hg : ∀ delta, op ≠ .Grow delta)
    (h : op.after m = some m1) : m1.bytes.length = m.bytes.length := by
  unfold Op.after at h
  split at h
  · rename_i m2 he
    simp only [Option.some.injEq] at h
    rw [← h]
    exact exec_ok_length m m2 op hg he
  · simp only [Option.some.injEq] at h
    rw [h]
  · simp at h

/-- C4, amended. Size never decreases, outside a shrinking or wrapping `Grow`:
for every memory state and every single call with a defined outcome of any
operation of the class, provided that, when the call is `Grow(delta)`, either
`delta ≥ 0` and `(Size() + delta) * 65536` is below `2^31`, or the call throws:
whether the call returns or throws, `Size()` after the call is greater than or
equal to `Size()` before it. -/
theorem size_never_decreases (m m1 : Mem) (op : Op)
    (hop : ∀ delta, op = .Grow delta →
      (0 ≤ delta ∧ (m.Size + delta) * 65536 < 2 ^ 31) ∨ ∃ e, Grow m delta = .throws e)
    (h : op.after m = some m1) : m.Size ≤ m1.Size := by
  by_cases hg : ∃ delta, op = .Grow delta
  · obtain ⟨delta, rfl⟩ := hg
    rcases hop delta rfl with ⟨h0, hb⟩ | ⟨e, he⟩
    · simp only [Op.after, Op.exec, grow_ok m delta h0 hb, Outcome.map,
        Option.some.injEq] at h
      have hs := Size_nonneg m
      have hp : ((PageSize : Nat) : Int) = 65536 := by norm_num [PageSize]
      rw [← h]
      generalize hS : m.Size = S at *
      simp only [Size, length_resize, hp]
      omega
    · simp only [Op.after, Op.exec, he, Outcome.map, Option.some.injEq] at h
      rw [h]
  · have hlen := after_length m m1 op (fun delta hd => hg ⟨delta, hd⟩) h
    unfold Size
    rw [hlen]

/-- Witness of C4 amended: a 32-bit store into a ten-byte buffer. -/
theorem size_never_decreases_witness :
    Size ⟨[1, 2, 3, 4, 5, 6, 7, 8, 9, 10]⟩ ≤ Size ⟨[1, 2, 3, 1, 0, 0, 0, 8, 9, 10]⟩ :=
  size_never_decreases ⟨[1, 2, 3, 4, 5, 6, 7, 8, 9, 10]⟩ ⟨[1, 2, 3, 1, 0, 0, 0, 8, 9, 10]⟩
    (.StoreInt32 3 1) (by intro delta hd; cases hd) (by decide)

/-- On any buffer of exactly one page, `Grow(-1)` resizes to the length 0. -/
theorem grow_one_page_shrinks (bs : List Byte) (h : bs.length = 65536) :
    Size ⟨bs⟩ = 1 ∧ Grow ⟨bs⟩ (-1) = .ok (1, ⟨[]⟩) := by
  have hs : Size ⟨bs⟩ = 1 := by simp [Size, PageSize, h]
  refine ⟨hs, ?_⟩
  simp only [Grow, hs]
  simp [PageSize, wrap32, resize]

/-- The state after a `Grow` that returns is the state it returns. -/
theorem after_grow_ok (m m1 : Mem) (delta r : Int) (h : Grow m delta = .ok (r, m1)) :
    Op.after m (.Grow delta) = some m1 := by
  simp only [Op.after, Op.exec, h, Outcome.map]

/-- Counterexample to C4 as stated: `Grow` accepts a negative argument; on a
memory of one page `Grow(-1)` returns normally and leaves a memory of size 0. -/
theorem size_never_decreases_counterexample :
    Op.after ⟨List.replicate 65536 0⟩ (.Grow (-1)) = some ⟨[]⟩ ∧
      Size ⟨[]⟩ < Size ⟨List.replicate 65536 0⟩ := by
  have hg := grow_one_page_shrinks (List.replicate 65536 0) (List.length_replicate _ _)
  refine ⟨after_grow_ok _ _ _ _ hg.2, ?_⟩
  rw [hg.1]
  simp [Size, PageSize]


/-! ## The page-multiple invariant -/

theorem wrap32_mul_page (x : Int) : wrap32 (x * (PageSize : Int)) % 65536 = 0 := by
  have hp : ((PageSize : Nat) : Int) = 65536 := by norm_num [PageSize]
  rw [hp]
  unfold wrap32
  norm_num
  omega

/-- A `Grow` that returns, wrapped or not, leaves a whole number of pages. -/
theorem grow_ok_page_multiple (m m1 : Mem) (delta r : Int)
    (h : Grow m delta = .ok (r, m1)) : m1.bytes.length % PageSize = 0 := by
  unfold Grow at h
  simp only at h
  split at h
  · simp at h
  · rename_i hneg
    simp only [Outcome.ok.injEq, Prod.mk.injEq] at h
    rw [← h.2]
    simp only [length_resize]
    have hm := wrap32_mul_page (wrap32 (m.Size + delta))
    have hp : PageSize = 65536 := by norm_num [PageSize]
    generalize wrap32 (wrap32 (m.Size + delta) * (PageSize : Int)) = newLen at hm hneg
    rw [hp]
    omega

/-- Every call with a defined outcome keeps the length of the buffer a
multiple of the page size. -/
theorem after_page_multiple (m m1 : Mem) (op : Op) (hv : m.bytes.length % PageSize = 0)
    (h : op.after m = some m1) : m1.bytes.length % PageSize = 0 := by
  by_cases hg : ∃ delta, op = .Grow delta
  · obtain ⟨delta, rfl⟩ := hg
    unfold Op.after at h
    split at h
    · rename_i m2 he
      simp only [Option.some.injEq] at h
      rw [← h]
      simp only [Op.exec] at he
      cases hgr : Grow m delta with
      | ok r =>
        rw [hgr] at he
        simp only [Outcome.map, Outcome.ok.injEq] at he
        exact grow_ok_page_multiple m m2 delta r.1 (by rw [hgr, ← he])
      | throws e => rw [hgr] at he; simp [Outcome.map] at he
      | undefined => rw [hgr] at he; simp [Outcome.map] at he
    · simp only [Option.some.injEq] at h
      rw [← h]
      exact hv
    · simp at h
  · rw [after_length m m1 op (fun delta hd => hg ⟨delta, hd⟩) h]
    exact hv

theorem run_page_multiple (ops : List Op) (m m1 : Mem) (hv : m.bytes.length % PageSize = 0)
    (h : run m ops = some m1) : m1.bytes.length % PageSize = 0 := by
  induction ops generalizing m with
  | nil =>
    simp only [run, Option.some.injEq] at h
    rw [← h]
    exact hv
  | cons op ops ih =>
    simp only [run] at h
    split at h
    · rename_i m2 ha
      exact ih m2 (after_page_multiple m m2 op hv ha) h
    · simp at h

theorem length_ReadFullLoop (n : Nat) : ∀ (dst : List Byte) (offset : Nat) (s : Stream),
    s.data.length = n → (ReadFullLoop dst offset s).length = dst.length := by
  induction n using Nat.strong_induction_on with
  | _ n ih =>
    intro dst offset s hn
    rw [ReadFullLoop]
    split
    · rename_i hpos
      simp only [Stream.Read] at hpos
      have hw : (writeBytes dst offset
          (s.data.take (min (min (s.chunk 0 + 1) (dst.length - offset)) s.data.length))).length
          = dst.length := by
        apply length_writeBytes
        simp only [List.length_take]
        omega
      rw [ih (s.Read dst offset (dst.length - offset)).2.2.data.length
        (by simp only [Stream.Read, List.length_drop]; omega) _ _ _ rfl]
      exact hw
    · rfl

/-- A `Grow` that returns leaves a buffer of a length below `2^31`. -/
theorem grow_ok_lt (m m1 : Mem) (delta r : Int) (h : Grow m delta = .ok (r, m1)) :
    m1.bytes.length < 2 ^ 31 := by
  unfold Grow at h
  simp only at h
  split at h
  · simp at h
  · rename_i hneg
    simp only [Outcome.ok.injEq, Prod.mk.injEq] at h
    rw [← h.2]
    simp only [length_resize]
    generalize wrap32 (m.Size + delta) * (PageSize : Int) = x at hneg
    unfold wrap32 at hneg ⊢
    norm_num at hneg ⊢
    omega

/-- Every call with a defined outcome keeps the length of the buffer below
`2^31`. -/
theorem after_lt (m m1 : Mem) (op : Op) (hv : m.bytes.length < 2 ^ 31)
    (h : op.after m = some m1) : m1.bytes.length < 2 ^ 31 := by
  by_cases hg : ∃ delta, op = .Grow delta
  · obtain ⟨delta, rfl⟩ := hg
    unfold Op.after at h
    split at h
    · rename_i m2 he
      simp only [Option.some.injEq] at h
      rw [← h]
      simp only [Op.exec] at he
      cases hgr : Grow m delta with
      | ok r =>
        rw [hgr] at he
        simp only [Outcome.map, Outcome.ok.injEq] at he
        exact grow_ok_lt m m2 delta r.1 (by rw [hgr, ← he])
      | throws e => rw [hgr] at he; simp [Outcome.map] at he
      | undefined => rw [hgr] at he; simp [Outcome.map] at he
    · simp only [Option.some.injEq] at h
      rw [← h]
      exact hv
    · simp at h
  · rw [after_length m m1 op (fun delta hd => hg ⟨delta, hd⟩) h]
    exact hv

theorem run_lt (ops : List Op) (m m1 : Mem) (hv : m.bytes.length < 2 ^ 31)
    (h : run m ops = some m1) : m1.bytes.length < 2 ^ 31 := by
  induction ops generalizing m with
  | nil =>
    simp only [run, Option.some.injEq] at h
    rw [← h]
    exact hv
  | cons op ops ih =>
    simp only [run] at h
    split at h
    · rename_i m2 ha
      exact ih m2 (after_lt m m2 op hv ha) h
    · simp at h

/-- The constructor yields a memory exactly when the size of the buffer fits
an `int` and the resource is there; the buffer then has `n * PageSize` bytes. -/
theorem ctor_some (n : Nat) (s : Stream) (hn : n * 65536 < 2 ^ 31) :
    ctor n (some s) = some ⟨ReadFull (List.replicate (n * PageSize) 0) s⟩ := by
  have hp : PageSize = 65536 := by norm_num [PageSize]
  simp only [ctor]
  rw [if_pos (by rw [hp]; exact hn)]

theorem ctor_eq_some (n : Nat) (s : Stream) (m : Mem) (h : ctor n (some s) = some m) :
    n * 65536 < 2 ^ 31 ∧ m = ⟨ReadFull (List.replicate (n * PageSize) 0) s⟩ := by
  have hp : PageSize = 65536 := by norm_num [PageSize]
  simp only [ctor] at h
  split at h
  · rename_i hlt
    simp only [Option.some.injEq] at h
    exact ⟨by rw [hp] at hlt; exact hlt, h.symm⟩
  · simp at h

theorem ctor_length (n : Nat) (s : Stream) (m : Mem) (h : ctor n (some s) = some m) :
    m.bytes.length = n * 65536 ∧ n * 65536 < 2 ^ 31 := by
  have hp : PageSize = 65536 := by norm_num [PageSize]
  obtain ⟨hn, rfl⟩ := ctor_eq_some n s m h
  refine ⟨?_, hn⟩
  simp only
  rw [ReadFull, length_ReadFullLoop _ _ _ _ rfl, List.length_replicate, hp]

/-- C5. Page-multiple invariant: construction with an initial page count `n`
yields a memory whenever `n * 65536` is below `2^31`; and for any initial page
count `n ≥ 0` and any stream, after construction and after every sequence of
calls of the operations of the class with defined outcomes (calls that throw
and `Grow` calls whose 32-bit size computation wraps included), the length of
the buffer is an exact multiple of 65536 (and below `2^31`, the length of an
array). -/
theorem page_multiple_invariant (n : Nat) (s : Stream) (ops : List Op) :
    (n * 65536 < 2 ^ 31 → ∃ m, ctor n (some s) = some m) ∧
      ∀ m, ctor n (some s) = some m →
        m.bytes.length % PageSize = 0 ∧ m.bytes.length < 2 ^ 31 ∧
        ∀ m1, run m ops = some m1 →
          m1.bytes.length % PageSize = 0 ∧ m1.bytes.length < 2 ^ 31 := by
  have hp : PageSize = 65536 := by norm_num [PageSize]
  refine ⟨fun hn => ⟨_, ctor_some n s hn⟩, ?_⟩
  intro m hm
  obtain ⟨hl, hn⟩ := ctor_length n s m hm
  have hv : m.bytes.length % PageSize = 0 := by
    rw [hl, hp]
    exact Nat.mul_mod_left n 65536
  have hb : m.bytes.length < 2 ^ 31 := by rw [hl]; exact hn
  exact ⟨hv, hb, fun m1 h => ⟨run_page_multiple ops m m1 hv h, run_lt ops m m1 hb h⟩⟩

/-- A `Grow` whose wrapped new length is the natural number `L` returns and
resizes the buffer to `L` bytes. -/
theorem grow_eq (m : Mem) (delta : Int) (L : Nat)
    (h : wrap32 (wrap32 (m.Size + delta) * (PageSize : Int)) = (L : Int)) :
    Grow m delta = .ok (m.Size, ⟨resize m.bytes L⟩) := by
  simp only [Grow, h]
  rw [if_neg (by omega), Int.toNat_ofNat]

/-- A `Grow` whose wrapped new length is negative throws. -/
theorem grow_throws (m : Mem) (delta : Int)
    (h : wrap32 (wrap32 (m.Size + delta) * (PageSize : Int)) < 0) :
    Grow m delta = .throws .argumentOutOfRange := by
  simp only [Grow]
  rw [if_pos h]

theorem Size_of_length (m : Mem) (k : Nat) (h : m.bytes.length = k * 65536) :
    m.Size = (k : Int) := by
  have hp : ((PageSize : Nat) : Int) = 65536 := by norm_num [PageSize]
  simp only [Size]
  rw [h, hp]
  push_cast
  omega

/-- The state after a `Grow` that throws is the state before it. -/
theorem after_grow_throws (m : Mem) (delta : Int) (e : Exn) (h : Grow m delta = .throws e) :
    Op.after m (.Grow delta) = some m := by
  simp only [Op.after, Op.exec, h, Outcome.map]

/-- The state after a store that returns is the state it returns. -/
theorem after_storeInt32_ok (m m1 : Mem) (addr v : Int)
    (h : storeRaw m addr 4 (toUnsigned 32 v) = .ok m1) :
    Op.after m (.StoreInt32 addr v) = some m1 := by
  simp only [Op.after, Op.exec, StoreInt32, h]

theorem run_cons (m m1 : Mem) (op : Op) (ops : List Op) (h : op.after m = some m1) :
    run m (op :: ops) = run m1 ops := by
  simp only [run, h]

theorem run_nil (m : Mem) : run m [] = some m := rfl

/-- On any buffer of exactly one page this sequence of calls has defined
outcomes: a `Grow` by one page, a store in the new page, a `Grow` whose size
computation wraps (from two pages to one), and a `Grow` that throws. -/
theorem run_sample (bs : List Byte) (h : bs.length = 1 * 65536) :
    ∃ m1, run ⟨bs⟩ [.Grow 1, .StoreInt32 65536 (-1), .Grow 65535, .Grow 32767] = some m1 := by
  have hs0 : Size ⟨bs⟩ = ((1 : Nat) : Int) := Size_of_length ⟨bs⟩ 1 h
  have hw1 : wrap32 (wrap32 (Size ⟨bs⟩ + 1) * (PageSize : Int)) = ((2 * 65536 : Nat) : Int) := by
    rw [hs0]
    norm_num [wrap32, PageSize]
  have ha1 := after_grow_ok _ _ _ _ (grow_eq ⟨bs⟩ 1 (2 * 65536) hw1)
  have hl1 : (resize bs (2 * 65536)).length = 2 * 65536 := length_resize _ _
  obtain ⟨m2, hst, hl2, _⟩ := storeRaw_loadRaw ⟨resize bs (2 * 65536)⟩
    65536 4 (toUnsigned 32 (-1)) (by decide) (by decide)
    (by
      show (65536 : Int) + ((4 : Nat) : Int) ≤ ((resize bs (2 * 65536)).length : Int)
      rw [hl1]
      decide)
  have ha2 : Op.after ⟨resize bs (2 * 65536)⟩ (.StoreInt32 65536 (-1)) = some m2 :=
    after_storeInt32_ok _ _ _ _ hst
  have hs2 : Size m2 = ((2 : Nat) : Int) := Size_of_length m2 2 (hl2.trans hl1)
  have hw3 : wrap32 (wrap32 (m2.Size + 65535) * (PageSize : Int)) = ((1 * 65536 : Nat) : Int) := by
    rw [hs2]
    norm_num [wrap32, PageSize]
  have ha3 := after_grow_ok _ _ _ _ (grow_eq m2 65535 (1 * 65536) hw3)
  have hs3 : Size ⟨resize m2.bytes (1 * 65536)⟩ = ((1 : Nat) : Int) :=
    Size_of_length ⟨resize m2.bytes (1 * 65536)⟩ 1 (length_resize _ _)
  have hw4 : wrap32 (wrap32 (Size ⟨resize m2.bytes (1 * 65536)⟩ + 32767) * (PageSize : Int))
      < 0 := by
    rw [hs3]
    norm_num [wrap32, PageSize]
  have ha4 : Op.after ⟨resize m2.bytes (1 * 65536)⟩ (.Grow 32767)
      = some ⟨resize m2.bytes (1 * 65536)⟩ :=
    after_grow_throws _ _ _ (grow_throws _ _ hw4)
  refine ⟨⟨resize m2.bytes (1 * 65536)⟩, ?_⟩
  rw [run_cons _ _ _ _ ha1, run_cons _ _ _ _ ha2, run_cons _ _ _ _ ha3,
    run_cons _ _ _ _ ha4]
  exact run_nil _

/-- Witness of C5: one page constructed from a two-byte stream, then a `Grow`, a
store, a wrapping `Grow` and a throwing `Grow`. -/
theorem page_multiple_invariant_witness :
    ∃ m m1, ctor 1 (some ⟨[42, 0], fun _ => 0⟩) = some m ∧
      run m [.Grow 1, .StoreInt32 65536 (-1), .Grow 65535, .Grow 32767] = some m1 ∧
      m.bytes.length % PageSize = 0 ∧ m1.bytes.length % PageSize = 0 ∧
      m1.bytes.length < 2 ^ 31 :=
  have t := page_multiple_invariant 1 ⟨[42, 0], fun _ => 0⟩
    [.Grow 1, .StoreInt32 65536 (-1), .Grow 65535, .Grow 32767]
  match t.1 (by decide) with
  | ⟨m, hm⟩ =>
    match run_sample m.bytes (ctor_length 1 _ m hm).1 with
    | ⟨m1, hr⟩ => ⟨m, m1, hm, hr, (t.2 m hm).1, ((t.2 m hm).2.2 m1 hr).1,
        ((t.2 m hm).2.2 m1 hr).2⟩

/-! ## Accesses outside the buffer, and the frame of a store -/

theorem inRange_false (m : Mem) (addr : Int)
    (h : addr < 0 ∨ (m.bytes.length : Int) ≤ addr) : inRange m addr = false := by
  cases hr : inRange m addr with
  | false => rfl
  | true =>
    have := (inRange_iff m addr).1 hr
    omega

theorem loadRaw_out (m : Mem) (addr : Int) (k : Nat)
    (h : addr < 0 ∨ (m.bytes.length : Int) ≤ addr) :
    loadRaw m addr k = .throws .indexOutOfRange := by
  simp [loadRaw, inRange_false m addr h]

theorem storeRaw_out (m : Mem) (addr : Int) (k n : Nat)
    (h : addr < 0 ∨ (m.bytes.length : Int) ≤ addr) :
    storeRaw m addr k n = .throws .indexOutOfRange := by
  simp [storeRaw, inRange_false m addr h]

/-- C7, amended. Out-of-range typed access is rejected when its first byte is
out of range: for every memory state, every typed load or store and every
address `addr` with `addr < 0` or `addr ≥ bytes.length` (for the one-byte
accessors that is every `addr ≥ 0` with `addr + sizeof(T) > bytes.length`), the
call raises the index-out-of-range error and neither returns a value nor
writes. -/
theorem typed_access_out_of_range (m : Mem) (op : Op) (addr : Int) (k : Nat)
    (hop : op.typed = some (addr, k))
    (h : addr < 0 ∨ (m.bytes.length : Int) ≤ addr) :
    op.exec m = .throws .indexOutOfRange ∧ op.after m = some m := by
  have hr := inRange_false m addr h
  have hl : ∀ j, loadRaw m addr j = .throws .indexOutOfRange := fun j => loadRaw_out m addr j h
  have hs : ∀ j n, storeRaw m addr j n = .throws .indexOutOfRange :=
    fun j n => storeRaw_out m addr j n h
  have he : op.exec m = .throws .indexOutOfRange := by
    cases op <;> simp only [Op.typed, Option.some.injEq, Prod.mk.injEq, reduceCtorEq] at hop <;>
      obtain ⟨rfl, _⟩ := hop <;>
      simp [Op.exec, LoadInt8, LoadUint8, LoadInt16, LoadUint16, LoadInt32, LoadUint32,
        LoadInt64, LoadFloat32, LoadFloat64, StoreInt8, StoreInt16, StoreInt32, StoreInt64,
        StoreFloat32, StoreFloat64, hr, hl, hs, Outcome.map]
  exact ⟨he, by simp only [Op.after, he]⟩

/-- Witness of C7 amended: a 64-bit load at the length of a ten-byte buffer. -/
theorem typed_access_out_of_range_witness :
    Op.exec ⟨[1, 2, 3, 4, 5, 6, 7, 8, 9, 10]⟩ (.LoadInt64 10) = .throws .indexOutOfRange ∧
      Op.after ⟨[1, 2, 3, 4, 5, 6, 7, 8, 9, 10]⟩ (.LoadInt64 10)
        = some ⟨[1, 2, 3, 4, 5, 6, 7, 8, 9, 10]⟩ :=
  typed_access_out_of_range ⟨[1, 2, 3, 4, 5, 6, 7, 8, 9, 10]⟩ (.LoadInt64 10) 10 8 rfl
    (by decide)

/-- On any buffer of exactly one page, the 32-bit accessors at address 65534
pass the index check and then leave the array unchecked. -/
theorem one_page_straddle (bs : List Byte) (h : bs.length = 65536) (n : Nat) :
    Size ⟨bs⟩ = 1 ∧ loadRaw ⟨bs⟩ 65534 4 = .undefined ∧
      storeRaw ⟨bs⟩ 65534 4 n = .undefined := by
  refine ⟨by simp [Size, PageSize, h], ?_, ?_⟩
  · simp [loadRaw, inRange, h]
  · simp [storeRaw, inRange, h]

/-- Counterexample to C7 as stated: on a memory of one page, the address 65534
has `addr < bytes.length < addr + 4`; `LoadInt32` and `StoreInt32` there pass
the index check of `&this.bytes[addr]` and access four bytes unchecked: no
error is raised. -/
theorem typed_access_out_of_range_counterexample :
    (65534 : Int) + 4 > Size ⟨List.replicate 65536 0⟩ * 65536 ∧
      LoadInt32 ⟨List.replicate 65536 0⟩ 65534 = .undefined ∧
      StoreInt32 ⟨List.replicate 65536 0⟩ 65534 (-1) = .undefined ∧
      ∀ e, LoadInt32 ⟨List.replicate 65536 0⟩ 65534 ≠ .throws e := by
  have hs := one_page_straddle (List.replicate 65536 0) (List.length_replicate _ _)
  have hl : LoadInt32 ⟨List.replicate 65536 0⟩ 65534 = .undefined := by
    rw [LoadInt32, (hs 0).2.1]
    rfl
  refine ⟨?_, hl, ?_, ?_⟩
  · rw [(hs 0).1]
    decide
  · rw [StoreInt32, (hs _).2.2]
  · intro e
    rw [hl]
    exact fun hc => Outcome.noConfusion hc

/-- A raw store inside the buffer leaves the bytes outside its range as they
were. -/
theorem storeRaw_frame (m : Mem) (addr : Int) (k n : Nat) (hk : 0 < k) (h0 : 0 ≤ addr)
    (h : addr + (k : Int) ≤ (m.bytes.length : Int)) :
    ∃ m1, storeRaw m addr k n = .ok m1 ∧ m1.bytes.length = m.bytes.length ∧
      ∀ i, i < addr.toNat ∨ addr.toNat + k ≤ i → m1.bytes[i]? = m.bytes[i]? := by
  have hr : inRange m addr = true := (inRange_iff m addr).2 ⟨h0, by omega⟩
  have hle : addr.toNat + k ≤ m.bytes.length := by omega
  have hlen : addr.toNat + (leEncode k n).length ≤ m.bytes.length := by
    rw [length_leEncode]; exact hle
  refine ⟨⟨writeBytes m.bytes addr.toNat (leEncode k n)⟩, ?_, ?_, ?_⟩
  · simp [storeRaw, hr, hle]
  · exact length_writeBytes _ _ _ hlen
  · intro i hi
    rcases hi with hi | hi
    · exact getElem?_writeBytes_lt _ _ _ _ hlen hi
    · exact getElem?_writeBytes_ge _ _ _ _ hlen (by rw [length_leEncode]; exact hi)

/-- C8. Typed store frame: for every memory state, every typed store of the
class (integer or floating point), every value and every address `addr`,
aligned or not, with `0 ≤ addr` and `addr + sizeof(T) ≤ bytes.length`, the
store returns, leaves the length of the buffer unchanged and leaves every byte
at an index outside `[addr, addr + sizeof(T))` unchanged. -/
theorem typed_store_frame (m : Mem) (op : Op) (addr : Int) (k : Nat)
    (hop : op.storeAt = some (addr, k)) (h0 : 0 ≤ addr)
    (h : addr + (k : Int) ≤ (m.bytes.length : Int)) :
    ∃ m1, op.exec m = .ok m1 ∧ m1.bytes.length = m.bytes.length ∧
      ∀ i, i < addr.toNat ∨ addr.toNat + k ≤ i → m1.bytes[i]? = m.bytes[i]? := by
  cases op <;> simp only [Op.storeAt, Option.some.injEq, Prod.mk.injEq, reduceCtorEq] at hop
  case StoreInt8 a v =>
    obtain ⟨rfl, rfl⟩ := hop
    have hr : inRange m a = true := (inRange_iff m a).2 ⟨h0, by omega⟩
    refine ⟨⟨m.bytes.set a.toNat ⟨toUnsigned 8 v % 256, Nat.mod_lt _ (by decide)⟩⟩,
      by simp only [Op.exec, StoreInt8, hr, if_true], by simp, ?_⟩
    intro i hi
    simp only
    rw [List.getElem?_set_ne (by omega)]
  case StoreInt16 a v =>
    obtain ⟨rfl, rfl⟩ := hop
    exact storeRaw_frame m a 2 _ (by decide) h0 h
  case StoreInt32 a v =>
    obtain ⟨rfl, rfl⟩ := hop
    exact storeRaw_frame m a 4 _ (by decide) h0 h
  case StoreInt64 a v =>
    obtain ⟨rfl, rfl⟩ := hop
    exact storeRaw_frame m a 8 _ (by decide) h0 h
  case StoreFloat32 a v =>
    obtain ⟨rfl, rfl⟩ := hop
    exact storeRaw_frame m a 4 _ (by decide) h0 h
  case StoreFloat64 a v =>
    obtain ⟨rfl, rfl⟩ := hop
    exact storeRaw_frame m a 8 _ (by decide) h0 h

/-- Witness of C8: an unaligned 16-bit store at address 3 of a six-byte
buffer. -/
theorem typed_store_frame_witness :
    ∃ m1, Op.exec ⟨[1, 2, 3, 4, 5, 6]⟩ (.StoreInt16 3 (-1)) = .ok m1 ∧
      m1.bytes.length = ([1, 2, 3, 4, 5, 6] : List Byte).length ∧
      ∀ i, i < (3 : Int).toNat ∨ (3 : Int).toNat + 2 ≤ i →
        m1.bytes[i]? = ([1, 2, 3, 4, 5, 6] : List Byte)[i]? :=
  typed_store_frame ⟨[1, 2, 3, 4, 5, 6]⟩ (.StoreInt16 3 (-1)) 3 2 rfl (by decide) (by decide)


/-! ## Little-endian layout -/

theorem readBytes_succ (bs : List Byte) (a k : Nat) (h : a < bs.length) :
    readBytes bs a (k + 1) = bs.getD a 0 :: readBytes bs (a + 1) k := by
  unfold readBytes
  rw [List.drop_eq_getElem_cons h, List.take_succ_cons]
  simp [List.getD_eq_getElem?_getD, List.getElem?_eq_getElem h]

/-- The number a run of `k` bytes of the buffer denotes is the sum of its bytes
weighted by the powers of 256. -/
theorem leDecode_readBytes (bs : List Byte) (k : Nat) : ∀ a, a + k ≤ bs.length →
    leDecode (readBytes bs a k)
      = (Finset.range k).sum fun i => (bs.getD (a + i) 0).val * 256 ^ i := by
  induction k with
  | zero => intro a _; simp [readBytes, leDecode]
  | succ k ih =>
    intro a h
    rw [readBytes_succ bs a k (by omega), leDecode, ih (a + 1) (by omega),
      Finset.sum_range_succ', Finset.mul_sum]
    simp only [pow_zero, mul_one, Nat.add_zero]
    rw [Nat.add_comm]
    congr 1
    apply Finset.sum_congr rfl
    intro i _
    rw [pow_succ, Nat.add_assoc, Nat.add_comm 1 i]
    ring

/-- A raw load inside the buffer returns the little-endian sum of the bytes. -/
theorem loadRaw_sum (m : Mem) (addr : Int) (k : Nat) (hk : 0 < k) (h0 : 0 ≤ addr)
    (h : addr + (k : Int) ≤ (m.bytes.length : Int)) :
    loadRaw m addr k
      = .ok ((Finset.range k).sum fun i => byteAt m (addr.toNat + i) * 256 ^ i) := by
  have hr : inRange m addr = true := (inRange_iff m addr).2 ⟨h0, by omega⟩
  have hle : addr.toNat + k ≤ m.bytes.length := by omega
  simp only [loadRaw, hr, hle, if_true, leDecode_readBytes m.bytes k addr.toNat hle, byteAt]

/-- A raw store inside the buffer sets byte `i` of its range to byte `i` of the
pattern stored, least significant first. -/
theorem storeRaw_bytes (m : Mem) (addr : Int) (k n : Nat) (hk : 0 < k) (h0 : 0 ≤ addr)
    (h : addr + (k : Int) ≤ (m.bytes.length : Int)) :
    ∃ m1, storeRaw m addr k n = .ok m1 ∧
      ∀ i, i < k → (m1.bytes[addr.toNat + i]?).map Fin.val = some (n / 256 ^ i % 256) := by
  have hr : inRange m addr = true := (inRange_iff m addr).2 ⟨h0, by omega⟩
  have hle : addr.toNat + k ≤ m.bytes.length := by omega
  have hlen : addr.toNat + (leEncode k n).length ≤ m.bytes.length := by
    rw [length_leEncode]; exact hle
  refine ⟨⟨writeBytes m.bytes addr.toNat (leEncode k n)⟩, by simp [storeRaw, hr, hle], ?_⟩
  intro i hi
  simp only
  rw [getElem?_writeBytes_mid _ _ _ _ hlen (by rw [length_leEncode]; exact hi)]
  exact getElem?_leEncode k n i hi

/-- C6. Little-endian decoding: for every memory state and every address with
`0 ≤ addr` and `addr + k ≤ bytes.length`, the `k`-byte unsigned load returns
the sum over `i < k` of `bytes[addr+i] * 256^i` (`k = 2` for `LoadUint16`,
`k = 4` for `LoadUint32`), and `StoreInt16`, `StoreInt32`, `StoreInt64` at
`addr` set `bytes[addr+i]` to byte `i`, least significant first, of the
two's-complement pattern of the value. -/
theorem little_endian_decoding (m : Mem) (addr v : Int) (h0 : 0 ≤ addr) :
    (addr + 2 ≤ (m.bytes.length : Int) → LoadUint16 m addr
      = .ok ((Finset.range 2).sum fun i => byteAt m (addr.toNat + i) * 256 ^ i)) ∧
    (addr + 4 ≤ (m.bytes.length : Int) → LoadUint32 m addr
      = .ok ((Finset.range 4).sum fun i => byteAt m (addr.toNat + i) * 256 ^ i)) ∧
    (addr + 2 ≤ (m.bytes.length : Int) → ∃ m1, StoreInt16 m addr v = .ok m1 ∧
      ∀ i, i < 2 → (m1.bytes[addr.toNat + i]?).map Fin.val
        = some (toUnsigned 16 v / 256 ^ i % 256)) ∧
    (addr + 4 ≤ (m.bytes.length : Int) → ∃ m1, StoreInt32 m addr v = .ok m1 ∧
      ∀ i, i < 4 → (m1.bytes[addr.toNat + i]?).map Fin.val
        = some (toUnsigned 32 v / 256 ^ i % 256)) ∧
    (addr + 8 ≤ (m.bytes.length : Int) → ∃ m1, StoreInt64 m addr v = .ok m1 ∧
      ∀ i, i < 8 → (m1.bytes[addr.toNat + i]?).map Fin.val
        = some (toUnsigned 64 v / 256 ^ i % 256)) :=
  ⟨fun h => loadRaw_sum m addr 2 (by decide) h0 h,
    fun h => loadRaw_sum m addr 4 (by decide) h0 h,
    fun h => storeRaw_bytes m addr 2 _ (by decide) h0 h,
    fun h => storeRaw_bytes m addr 4 _ (by decide) h0 h,
    fun h => storeRaw_bytes m addr 8 _ (by decide) h0 h⟩

/-- Witness of C6: the accessors at the unaligned address 1 of a ten-byte
buffer, with the value `-2`. -/
theorem little_endian_decoding_witness :
    LoadUint16 ⟨[1, 2, 3, 4, 5, 6, 7, 8, 9, 10]⟩ 1 = .ok (2 + 3 * 256) ∧
    LoadUint32 ⟨[1, 2, 3, 4, 5, 6, 7, 8, 9, 10]⟩ 1
      = .ok (2 + 3 * 256 + 4 * 256 ^ 2 + 5 * 256 ^ 3) ∧
    (∃ m1, StoreInt16 ⟨[1, 2, 3, 4, 5, 6, 7, 8, 9, 10]⟩ 1 (-2) = .ok m1 ∧
      (m1.bytes[1]?).map Fin.val = some 254 ∧ (m1.bytes[2]?).map Fin.val = some 255) ∧
    (∃ m1, StoreInt32 ⟨[1, 2, 3, 4, 5, 6, 7, 8, 9, 10]⟩ 1 (-2) = .ok m1 ∧
      (m1.bytes[1]?).map Fin.val = some 254 ∧ (m1.bytes[4]?).map Fin.val = some 255) ∧
    (∃ m1, StoreInt64 ⟨[1, 2, 3, 4, 5, 6, 7, 8, 9, 10]⟩ 1 (-2) = .ok m1 ∧
      (m1.bytes[1]?).map Fin.val = some 254 ∧ (m1.bytes[8]?).map Fin.val = some 255) :=
  have t := little_endian_decoding ⟨[1, 2, 3, 4, 5, 6, 7, 8, 9, 10]⟩ 1 (-2) (by decide)
  ⟨(t.1 (by decide)).trans (by decide),
    (t.2.1 (by decide)).trans (by decide),
    (t.2.2.1 (by decide)).imp fun _ h => ⟨h.1, h.2 0 (by decide), h.2 1 (by decide)⟩,
    (t.2.2.2.1 (by decide)).imp fun _ h => ⟨h.1, h.2 0 (by decide), h.2 3 (by decide)⟩,
    (t.2.2.2.2 (by decide)).imp fun _ h => ⟨h.1, h.2 0 (by decide), h.2 7 (by decide)⟩⟩


/-! ## Descriptors: LoadSlice and LoadString -/

theorem getElem?_readBytes (bs : List Byte) (a k i : Nat) :
    (readBytes bs a k)[i]? = if i < k then bs[a + i]? else none := by
  unfold readBytes
  by_cases hi : i < k
  · rw [if_pos hi, List.getElem?_take_of_lt hi, List.getElem?_drop]
  · rw [if_neg hi, List.getElem?_take_eq_none (by omega)]

/-- Reading a range that a write does not touch gives the bytes of before. -/
theorem readBytes_writeBytes_disjoint (bs : List Byte) (a : Nat) (data : List Byte)
    (b k : Nat) (h : a + data.length ≤ bs.length)
    (hd : ∀ i, b ≤ i → i < b + k → i < a ∨ a + data.length ≤ i) :
    readBytes (writeBytes bs a data) b k = readBytes bs b k := by
  apply List.ext_getElem?
  intro i
  rw [getElem?_readBytes, getElem?_readBytes]
  by_cases hi : i < k
  · rw [if_pos hi, if_pos hi]
    rcases hd (b + i) (by omega) (by omega) with h1 | h1
    · exact getElem?_writeBytes_lt _ _ _ _ h h1
    · exact getElem?_writeBytes_ge _ _ _ _ h h1
  · rw [if_neg hi, if_neg hi]

/-- The descriptor written by two 64-bit stores at `addr` and `addr + 8` is read
back by the two 64-bit loads of `LoadSlice` and `LoadString`, and the stores
leave every range outside `[addr, addr + 16)` as it was. -/
theorem descriptor_round_trip (m : Mem) (addr x y : Int) (hlen : m.bytes.length < 2 ^ 31)
    (h0 : 0 ≤ addr) (h : addr + 16 ≤ (m.bytes.length : Int))
    (hx : -2 ^ 63 ≤ x ∧ x < 2 ^ 63) (hy : -2 ^ 63 ≤ y ∧ y < 2 ^ 63) :
    ∃ m1 m2, StoreInt64 m addr x = .ok m1 ∧ StoreInt64 m1 (addr + 8) y = .ok m2 ∧
      m2.bytes.length = m.bytes.length ∧
      LoadInt64 m2 addr = .ok x ∧ LoadInt64 m2 (wrap32 (addr + 8)) = .ok y ∧
      ∀ b k, (∀ i, b ≤ i → i < b + k → i < addr.toNat ∨ addr.toNat + 16 ≤ i) →
        readBytes m2.bytes b k = readBytes m.bytes b k := by
  have hr : inRange m addr = true := (inRange_iff m addr).2 ⟨h0, by omega⟩
  have hle : addr.toNat + 8 ≤ m.bytes.length := by omega
  have hl1 : addr.toNat + (leEncode 8 (toUnsigned 64 x)).length ≤ m.bytes.length := by
    rw [length_leEncode]; exact hle
  have hlen1 : (writeBytes m.bytes addr.toNat (leEncode 8 (toUnsigned 64 x))).length
      = m.bytes.length := length_writeBytes _ _ _ hl1
  have hw : wrap32 (addr + 8) = addr + 8 :=
    wrap32_of_range _ (by norm_num; omega) (by norm_num at hlen ⊢; omega)
  have h8 : (addr + 8).toNat = addr.toNat + 8 := by omega
  obtain ⟨m2, hs2, hlen2, hld2⟩ :=
    storeRaw_loadRaw ⟨writeBytes m.bytes addr.toNat (leEncode 8 (toUnsigned 64 x))⟩
      (addr + 8) 8 (toUnsigned 64 y) (by decide) (by omega)
      (by simp only [hlen1]; push_cast; omega)
  have hm2 : m2.bytes = writeBytes (writeBytes m.bytes addr.toNat
      (leEncode 8 (toUnsigned 64 x))) (addr.toNat + 8) (leEncode 8 (toUnsigned 64 y)) := by
    have hr1 : inRange ⟨writeBytes m.bytes addr.toNat (leEncode 8 (toUnsigned 64 x))⟩
        (addr + 8) = true := by
      rw [inRange_iff]
      simp only [hlen1]
      exact ⟨by omega, by omega⟩
    simp only [storeRaw, hr1, if_true, hlen1, h8] at hs2
    rw [if_pos (by omega)] at hs2
    simp only [Outcome.ok.injEq] at hs2
    rw [← hs2]
  have hl2 : addr.toNat + 8 + (leEncode 8 (toUnsigned 64 y)).length
      ≤ (writeBytes m.bytes addr.toNat (leEncode 8 (toUnsigned 64 x))).length := by
    rw [length_leEncode, hlen1]; omega
  have hux : toUnsigned 64 x % 256 ^ 8 = toUnsigned 64 x :=
    Nat.mod_eq_of_lt (by simpa using toUnsigned_lt 64 x)
  have huy : toUnsigned 64 y % 256 ^ 8 = toUnsigned 64 y :=
    Nat.mod_eq_of_lt (by simpa using toUnsigned_lt 64 y)
  refine ⟨⟨writeBytes m.bytes addr.toNat (leEncode 8 (toUnsigned 64 x))⟩, m2, ?_, hs2, ?_,
    ?_, ?_, ?_⟩
  · simp [StoreInt64, storeRaw, hr, hle]
  · rw [hlen2]; exact hlen1
  · have hr2 : inRange m2 addr = true := by
      rw [inRange_iff, hlen2]
      simp only [hlen1]
      exact ⟨h0, by omega⟩
    have hrd : readBytes m2.bytes addr.toNat 8 = leEncode 8 (toUnsigned 64 x) := by
      rw [hm2, readBytes_writeBytes_disjoint _ _ _ _ _ hl2
        (by intro i _ _; rw [length_leEncode]; omega)]
      have := readBytes_writeBytes m.bytes addr.toNat (leEncode 8 (toUnsigned 64 x)) hl1
      rwa [length_leEncode] at this
    have hle2 : addr.toNat + 8 ≤ m2.bytes.length := by
      rw [hlen2]; simp only [hlen1]; exact hle
    simp only [LoadInt64, loadRaw, hr2, hle2, if_true, hrd, leDecode_leEncode, hux,
      Outcome.map]
    rw [toSigned_toUnsigned64 x hx.1 hx.2]
  · rw [hw]
    simp only [LoadInt64, hld2, huy, Outcome.map]
    rw [toSigned_toUnsigned64 y hy.1 hy.2]
  · intro b k hd
    rw [hm2, readBytes_writeBytes_disjoint _ _ _ _ _ hl2
        (by intro i hi1 hi2; rw [length_leEncode]; have := hd i hi1 hi2; omega),
      readBytes_writeBytes_disjoint _ _ _ _ _ hl1
        (by intro i hi1 hi2; rw [length_leEncode]; have := hd i hi1 hi2; omega)]

/-- C9. LoadSlice decodes a stored descriptor: for every memory state (the
length of a buffer is an `int`, below `2^31`), every
address with `0 ≤ addr` and `addr + 16 ≤ bytes.length`, and every `start`,
`length` with `0 ≤ start`, `0 ≤ length` and `start + length ≤ bytes.length`,
after `StoreInt64(addr, start)` and `StoreInt64(addr + 8, length)` the view
that `LoadSlice(addr)` returns is over the buffer as it is after the two
stores, has offset `start` and count `length`, and its contents are the bytes
`[start, start + length)` of that buffer. -/
theorem loadSlice_decodes_descriptor (m : Mem) (addr start length : Int)
    (hlen : m.bytes.length < 2 ^ 31)
    (h0 : 0 ≤ addr) (h : addr + 16 ≤ (m.bytes.length : Int))
    (hs : 0 ≤ start) (hl : 0 ≤ length) (hsl : start + length ≤ (m.bytes.length : Int)) :
    ∃ m1 m2 v, StoreInt64 m addr start = .ok m1 ∧ StoreInt64 m1 (addr + 8) length = .ok m2 ∧
      LoadSlice m2 addr = .ok v ∧ v.array = m2.bytes ∧ v.offset = start ∧
      v.count = length ∧
      v.contents = (m2.bytes.drop start.toNat).take length.toNat := by
  obtain ⟨m1, m2, h1, h2, hlen2, hx, hy, _⟩ := descriptor_round_trip m addr start length hlen
    h0 h (by norm_num at hlen ⊢; omega) (by norm_num at hlen ⊢; omega)
  have hws : wrap32 start = start :=
    wrap32_of_range _ (by norm_num; omega) (by norm_num at hlen ⊢; omega)
  have hwl : wrap32 length = length :=
    wrap32_of_range _ (by norm_num; omega) (by norm_num at hlen ⊢; omega)
  refine ⟨m1, m2, ⟨m2.bytes, start, length⟩, h1, h2, ?_, rfl, rfl, rfl, rfl⟩
  simp only [LoadSlice, hx, hy, Outcome.bind, hws, hwl, newArraySegment, hlen2]
  rw [if_neg (by omega), if_neg (by omega)]

/-- Witness of C9: a descriptor at address 0 of a twenty-byte buffer for the
three bytes from 17. -/
theorem loadSlice_decodes_descriptor_witness :
    ∃ m1 m2 v, StoreInt64 ⟨List.replicate 20 5⟩ 0 17 = .ok m1 ∧
      StoreInt64 m1 (0 + 8) 3 = .ok m2 ∧
      LoadSlice m2 0 = .ok v ∧ v.array = m2.bytes ∧ v.offset = 17 ∧ v.count = 3 ∧
      v.contents = (m2.bytes.drop (17 : Int).toNat).take (3 : Int).toNat :=
  loadSlice_decodes_descriptor ⟨List.replicate 20 5⟩ 0 17 3 (by decide) (by decide)
    (by decide) (by decide) (by decide) (by decide)


/-- C10. LoadString returns what StoreBytes wrote: for every byte sequence `b`
(valid UTF-8 or not), every `p` with `0 ≤ p` and `p + len(b) ≤ bytes.length`
and every `addr` with `0 ≤ addr` and `addr + 16 ≤ bytes.length` such that
`[addr, addr + 16)` is disjoint from `[p, p + len(b))`, after
`StoreBytes(p, b)`, `StoreInt64(addr, p)` and `StoreInt64(addr + 8, len(b))`,
`LoadString(addr)` returns the decoding of exactly `b` by the UTF-8 decoder of
the runtime, and the call leaves the buffer as it was. -/
theorem loadString_returns_stored (σ : Type) (decode : List Byte → σ) (m : Mem)
    (b : List Byte) (p addr : Int) (hlen : m.bytes.length < 2 ^ 31)
    (hp0 : 0 ≤ p) (hp : p + (b.length : Int) ≤ (m.bytes.length : Int))
    (h0 : 0 ≤ addr) (h : addr + 16 ≤ (m.bytes.length : Int))
    (hd : ∀ i : Int, p ≤ i → i < p + (b.length : Int) → ¬ (addr ≤ i ∧ i < addr + 16)) :
    ∃ m1 m2 m3, StoreBytes m p b = .ok m1 ∧ StoreInt64 m1 addr p = .ok m2 ∧
      StoreInt64 m2 (addr + 8) (b.length : Int) = .ok m3 ∧
      LoadString decode m3 addr = .ok (decode b) ∧
      Op.exec m3 (.LoadString addr) = .ok m3 := by
  have hpl : p.toNat + b.length ≤ m.bytes.length := by omega
  have hlen1 : (writeBytes m.bytes p.toNat b).length = m.bytes.length :=
    length_writeBytes _ _ _ hpl
  obtain ⟨m2, m3, h2, h3, hlen3, hx, hy, hfr⟩ :=
    descriptor_round_trip ⟨writeBytes m.bytes p.toNat b⟩ addr p (b.length : Int)
      (by simp only [hlen1]; exact hlen) h0 (by simp only [hlen1]; exact h)
      (by norm_num at hlen ⊢; omega) (by norm_num at hlen ⊢; omega)
  simp only [hlen1] at hlen3
  have hwp : wrap32 p = p :=
    wrap32_of_range _ (by norm_num; omega) (by norm_num at hlen ⊢; omega)
  have hwl : wrap32 (b.length : Int) = (b.length : Int) :=
    wrap32_of_range _ (by norm_num; omega) (by norm_num at hlen ⊢; omega)
  have hrd : readBytes m3.bytes p.toNat b.length = b := by
    rw [hfr p.toNat b.length]
    · exact readBytes_writeBytes m.bytes p.toNat b hpl
    · intro i hi1 hi2
      have := hd (i : Int) (by omega) (by omega)
      omega
  have hg : ∀ (τ : Type) (dec : List Byte → τ),
      LoadString dec m3 addr = .ok (dec b) := by
    intro τ dec
    simp only [LoadString, hx, hy, Outcome.bind, hwp, hwl, GetString, hlen3]
    rw [if_neg (by omega), if_neg (by omega)]
    simp only [Int.toNat_ofNat, hrd]
  refine ⟨⟨writeBytes m.bytes p.toNat b⟩, m2, m3, ?_, h2, h3, hg σ decode, ?_⟩
  · simp only [StoreBytes]
    rw [if_neg (by omega), if_neg (by omega)]
  · simp only [Op.exec, hg, Outcome.map]

/-- Witness of C10: the two bytes of the text "hi" stored at address 20 of a
thirty-byte buffer, with the descriptor at address 0. -/
theorem loadString_returns_stored_witness :
    ∃ m1 m2 m3, StoreBytes ⟨List.replicate 30 5⟩ 20 [104, 105] = .ok m1 ∧
      StoreInt64 m1 0 20 = .ok m2 ∧
      StoreInt64 m2 (0 + 8) (([104, 105] : List Byte).length : Int) = .ok m3 ∧
      LoadString (fun bs => bs.map Fin.val) m3 0 = .ok [104, 105] ∧
      Op.exec m3 (.LoadString 0) = .ok m3 :=
  loadString_returns_stored (List Nat) (fun bs => bs.map Fin.val) ⟨List.replicate 30 5⟩
    [104, 105] 20 0 (by decide) (by decide) (by decide) (by decide) (by decide)
    (by intro i h1 h2; simp only [List.length_cons, List.length_nil] at h2; omega)


/-! ## StoreBytes -/

/-- C11. StoreBytes postcondition: for every memory state, every byte sequence
`data` and every address with `0 ≤ addr` and `addr + len(data) ≤ bytes.length`,
`StoreBytes(addr, data)` returns; after it the bytes at
`[addr, addr + len(data))` equal `data`, every byte outside that range is
unchanged, and the length of the buffer is unchanged. -/
theorem storeBytes_postcondition (m : Mem) (addr : Int) (data : List Byte) (h0 : 0 ≤ addr)
    (h : addr + (data.length : Int) ≤ (m.bytes.length : Int)) :
    ∃ m1, StoreBytes m addr data = .ok m1 ∧
      (m1.bytes.drop addr.toNat).take data.length = data ∧
      (∀ i, i < data.length → m1.bytes[addr.toNat + i]? = data[i]?) ∧
      (∀ i, i < addr.toNat ∨ addr.toNat + data.length ≤ i → m1.bytes[i]? = m.bytes[i]?) ∧
      m1.bytes.length = m.bytes.length := by
  have hle : addr.toNat + data.length ≤ m.bytes.length := by omega
  refine ⟨⟨writeBytes m.bytes addr.toNat data⟩, ?_, ?_, ?_, ?_, ?_⟩
  · simp only [StoreBytes]
    rw [if_neg (by omega), if_neg (by omega)]
  · exact readBytes_writeBytes m.bytes addr.toNat data hle
  · intro i hi
    exact getElem?_writeBytes_mid _ _ _ _ hle hi
  · intro i hi
    rcases hi with hi | hi
    · exact getElem?_writeBytes_lt _ _ _ _ hle hi
    · exact getElem?_writeBytes_ge _ _ _ _ hle hi
  · exact length_writeBytes _ _ _ hle

/-- Witness of C11: three bytes copied to address 2 of a six-byte buffer. -/
theorem storeBytes_postcondition_witness :
    ∃ m1, StoreBytes ⟨[1, 2, 3, 4, 5, 6]⟩ 2 [7, 8, 9] = .ok m1 ∧
      (m1.bytes.drop (2 : Int).toNat).take ([7, 8, 9] : List Byte).length = [7, 8, 9] ∧
      (∀ i, i < ([7, 8, 9] : List Byte).length →
        m1.bytes[(2 : Int).toNat + i]? = ([7, 8, 9] : List Byte)[i]?) ∧
      (∀ i, i < (2 : Int).toNat ∨ (2 : Int).toNat + ([7, 8, 9] : List Byte).length ≤ i →
        m1.bytes[i]? = ([1, 2, 3, 4, 5, 6] : List Byte)[i]?) ∧
      m1.bytes.length = ([1, 2, 3, 4, 5, 6] : List Byte).length :=
  storeBytes_postcondition ⟨[1, 2, 3, 4, 5, 6]⟩ 2 [7, 8, 9] (by decide) (by decide)

/-- C12. StoreBytes bounds error: for every memory state, every byte sequence
`data` and every address with `addr + len(data) > bytes.length`,
`StoreBytes(addr, data)` raises an error (the argument error of `Array.Copy`
for a destination that is too short, its range error when `addr` is negative)
and leaves the whole buffer unchanged: no prefix of `data` is written. -/
theorem storeBytes_bounds_error (m : Mem) (addr : Int) (data : List Byte)
    (h : (m.bytes.length : Int) < addr + (data.length : Int)) :
    (∃ e, StoreBytes m addr data = .throws e) ∧
      (0 ≤ addr → StoreBytes m addr data = .throws .argument) ∧
      Op.after m (.StoreBytes addr data) = some m := by
  have ht : ∃ e, StoreBytes m addr data = .throws e := by
    by_cases hneg : addr < 0
    · exact ⟨.argumentOutOfRange, by simp only [StoreBytes]; rw [if_pos hneg]⟩
    · exact ⟨.argument, by simp only [StoreBytes]; rw [if_neg hneg, if_pos h]⟩
  refine ⟨ht, ?_, ?_⟩
  · intro h0
    simp only [StoreBytes]
    rw [if_neg (by omega), if_pos h]
  · obtain ⟨e, he⟩ := ht
    simp only [Op.after, Op.exec, he]

/-- Witness of C12: three bytes copied to address 4 of a six-byte buffer. -/
theorem storeBytes_bounds_error_witness :
    (∃ e, StoreBytes ⟨[1, 2, 3, 4, 5, 6]⟩ 4 [7, 8, 9] = .throws e) ∧
      StoreBytes ⟨[1, 2, 3, 4, 5, 6]⟩ 4 [7, 8, 9] = .throws .argument ∧
      Op.after ⟨[1, 2, 3, 4, 5, 6]⟩ (.StoreBytes 4 [7, 8, 9]) = some ⟨[1, 2, 3, 4, 5, 6]⟩ :=
  have t := storeBytes_bounds_error ⟨[1, 2, 3, 4, 5, 6]⟩ 4 [7, 8, 9] (by decide)
  ⟨t.1, t.2.1 (by decide), t.2.2⟩


/-! ## Construction from a snapshot -/

theorem ext_getD (l1 l2 : List Byte) (hl : l1.length = l2.length)
    (h : ∀ i, l1.getD i 0 = l2.getD i 0) : l1 = l2 := by
  apply List.ext_getElem hl
  intro i h1 h2
  have := h i
  simp only [List.getD_eq_getElem?_getD, List.getElem?_eq_getElem h1,
    List.getElem?_eq_getElem h2, Option.getD_some] at this
  exact this

theorem getD_take (l : List Byte) (r j : Nat) (h : j < r) :
    (l.take r).getD j 0 = l.getD j 0 := by
  simp only [List.getD_eq_getElem?_getD, List.getElem?_take_of_lt h]

theorem getD_drop (l : List Byte) (r j : Nat) : (l.drop r).getD j 0 = l.getD (r + j) 0 := by
  simp only [List.getD_eq_getElem?_getD, List.getElem?_drop]

theorem getD_of_length_le (l : List Byte) (i : Nat) (h : l.length ≤ i) : l.getD i 0 = 0 := by
  simp only [List.getD_eq_getElem?_getD, List.getElem?_eq_none h, Option.getD_none]

/-- The bytes of a buffer after a write that starts inside it or at its end. -/
theorem getD_writeBytes (bs : List Byte) (a : Nat) (data : List Byte) (i : Nat)
    (h : a ≤ bs.length) :
    (writeBytes bs a data).getD i 0
      = if a ≤ i ∧ i < a + data.length then data.getD (i - a) 0 else bs.getD i 0 := by
  have ha : (bs.take a).length = a := by simp [List.length_take]; omega
  simp only [List.getD_eq_getElem?_getD, writeBytes, List.append_assoc]
  by_cases h1 : i < a
  · rw [if_neg (by omega), List.getElem?_append_left (by omega), List.getElem?_take_of_lt h1]
  · by_cases h2 : i < a + data.length
    · rw [if_pos ⟨by omega, h2⟩, List.getElem?_append_right (by omega),
        List.getElem?_append_left (by omega), ha]
    · rw [if_neg (by omega), List.getElem?_append_right (by omega),
        List.getElem?_append_right (by omega), List.getElem?_drop, ha]
      congr 2
      omega

theorem length_writeBytes_max (bs : List Byte) (a : Nat) (data : List Byte)
    (h : a ≤ bs.length) :
    (writeBytes bs a data).length = max bs.length (a + data.length) := by
  simp only [writeBytes, List.length_append, List.length_take, List.length_drop]
  omega

/-- The buffer that the loop of `ReadFull` leaves: from `offset` on, the bytes of
the stream as far as the room and the stream reach, and the buffer as it was
elsewhere. -/
theorem getD_ReadFullLoop (n : Nat) : ∀ (dst : List Byte) (offset : Nat) (s : Stream),
    s.data.length = n → offset ≤ dst.length → ∀ i,
    (ReadFullLoop dst offset s).getD i 0
      = if offset ≤ i ∧ i < offset + min (dst.length - offset) s.data.length
        then s.data.getD (i - offset) 0 else dst.getD i 0 := by
  induction n using Nat.strong_induction_on with
  | _ n ih =>
    intro dst offset s hn ho i
    rw [ReadFullLoop]
    split
    · rename_i hpos
      simp only [Stream.Read] at hpos
      simp only [Stream.Read]
      generalize hr : min (min (s.chunk 0 + 1) (dst.length - offset)) s.data.length = r at hpos
      have hrl : (s.data.take r).length = r := by simp only [List.length_take]; omega
      have hw : (writeBytes dst offset (s.data.take r)).length = dst.length :=
        length_writeBytes _ _ _ (by omega)
      rw [ih (s.data.drop r).length (by simp only [List.length_drop]; omega) _ _ _ rfl
        (by rw [hw]; omega) i]
      simp only [hw, List.length_drop, getD_writeBytes dst offset _ i ho, hrl, getD_drop]
      by_cases h1 : offset + r ≤ i ∧ i < offset + r + min (dst.length - (offset + r)) (s.data.length - r)
      · rw [if_pos h1, if_pos ⟨by omega, by omega⟩]
        congr 1
        omega
      · rw [if_neg h1]
        by_cases h2 : offset ≤ i ∧ i < offset + r
        · rw [if_pos h2, if_pos ⟨by omega, by omega⟩, getD_take _ _ _ (by omega)]
        · rw [if_neg h2, if_neg (by omega)]
    · rename_i hpos
      simp only [Stream.Read] at hpos
      rw [if_neg (by omega)]

/-- The buffer that `ReadFull` leaves from a zero buffer of `N` bytes is the
stream cut or padded with zero bytes to `N` bytes. -/
theorem ReadFull_zero (N : Nat) (s : Stream) :
    ReadFull (List.replicate N 0) s = resize s.data N := by
  apply ext_getD
  · rw [ReadFull, length_ReadFullLoop _ _ _ _ rfl, List.length_replicate, length_resize]
  · intro i
    rw [ReadFull, getD_ReadFullLoop _ _ _ _ rfl (Nat.zero_le _) i]
    simp only [List.length_replicate, resize, Nat.zero_le, true_and, Nat.sub_zero, Nat.zero_add]
    by_cases h1 : i < min N s.data.length
    · rw [if_pos h1]
      simp only [List.getD_eq_getElem?_getD]
      rw [List.getElem?_append_left (by simp only [List.length_take]; omega),
        List.getElem?_take_of_lt (by omega)]
    · rw [if_neg h1]
      simp only [List.getD_eq_getElem?_getD, List.getElem?_replicate]
      by_cases h2 : i < N
      · rw [if_pos h2, List.getElem?_append_right (by simp only [List.length_take]; omega),
          List.getElem?_replicate]
        rw [if_pos (by simp only [List.length_take]; omega)]
      · rw [if_neg h2, List.getElem?_eq_none
          (by simp only [List.length_append, List.length_take, List.length_replicate]; omega)]

/-- C13, amended. Construction from a snapshot within the range of `int`: for
every initial page count `n ≥ 0` with `n * 65536` below `2^31` and every finite
snapshot byte stream, whatever the size (at least 1 while data remain and room
is left) of the chunk each read of the stream returns, the read loop of the
constructor terminates and the constructor yields a buffer of exactly
`n * 65536` bytes (`Size() = n`) whose byte `i` is byte `i` of the stream for
every `i` below both the length of the stream and `n * 65536`, and is 0 for
every other `i`. -/
theorem construction_from_snapshot (n : Nat) (s : Stream) (hn : n * 65536 < 2 ^ 31) :
    ∃ m, ctor n (some s) = some m ∧ m.bytes.length = n * 65536 ∧ m.Size = (n : Int) ∧
      (∀ i, i < s.data.length → i < n * 65536 → m.bytes[i]? = s.data[i]?) ∧
      (∀ i, s.data.length ≤ i → i < n * 65536 → m.bytes[i]? = some 0) := by
  have hp : PageSize = 65536 := by norm_num [PageSize]
  have hb : ReadFull (List.replicate (n * PageSize) 0) s = resize s.data (n * 65536) := by
    rw [ReadFull_zero, hp]
  have hl : (ReadFull (List.replicate (n * PageSize) 0) s).length = n * 65536 := by
    rw [hb, length_resize]
  have hc : ctor n (some s) = some ⟨ReadFull (List.replicate (n * PageSize) 0) s⟩ := by
    simp only [ctor]
    rw [if_pos (by rw [hp]; exact hn)]
  refine ⟨⟨ReadFull (List.replicate (n * PageSize) 0) s⟩, hc, hl, ?_, ?_, ?_⟩
  · simp only [Size]
    rw [hl, hp]
    push_cast
    omega
  · intro i h1 h2
    simp only [hb, resize]
    rw [List.getElem?_append_left (by simp only [List.length_take]; omega),
      List.getElem?_take_of_lt h2]
  · intro i h1 h2
    simp only [hb, resize]
    rw [List.getElem?_append_right (by simp only [List.length_take]; omega),
      List.getElem?_replicate]
    rw [if_pos (by simp only [List.length_take]; omega)]

/-- Witness of C13 amended: one page constructed from the two-byte stream
`2A 00`, read one byte at a time. -/
theorem construction_from_snapshot_witness :
    ∃ m, ctor 1 (some ⟨[42, 0], fun _ => 0⟩) = some m ∧ m.bytes.length = 1 * 65536 ∧
      m.Size = 1 ∧ m.bytes[0]? = some 42 ∧ m.bytes[1]? = some 0 ∧ m.bytes[2]? = some 0 ∧
      m.bytes[65535]? = some 0 :=
  match construction_from_snapshot 1 ⟨[42, 0], fun _ => 0⟩ (by decide) with
  | ⟨m, h1, h2, h3, h4, h5⟩ =>
    ⟨m, h1, h2, h3, h4 0 (by decide) (by decide), h4 1 (by decide) (by decide),
      h5 2 (by decide) (by decide), h5 65535 (by decide) (by decide)⟩

/-- Counterexample to C13 as stated: for the initial page count 32768 the size
`32768 * PageSize` is `2^31`, which is no `int`: the constructor yields no
buffer at all, of `32768 * 65536` bytes or of any other length. -/
theorem construction_from_snapshot_counterexample :
    32768 * 65536 = 2 ^ 31 ∧ ctor 32768 (some ⟨[42, 0], fun _ => 0⟩) = none ∧
      ¬ ∃ m, ctor 32768 (some ⟨[42, 0], fun _ => 0⟩) = some m ∧
        m.bytes.length = 32768 * 65536 := by
  have hc : ctor 32768 (some ⟨[42, 0], fun _ => 0⟩) = none := by
    simp only [ctor]
    rw [if_neg (by decide)]
  refine ⟨by decide, hc, ?_⟩
  rintro ⟨m, hm, _⟩
  rw [hc] at hm
  exact Option.noConfusion hm

/-! ## The snapshot file -/

theorem getD_append_zeros (f : List Byte) (k i : Nat) :
    (f ++ List.replicate k 0).getD i 0 = f.getD i 0 := by
  simp only [List.getD_eq_getElem?_getD]
  by_cases h : i < f.length
  · rw [List.getElem?_append_left h]
  · rw [List.getElem?_append_right (by omega), List.getElem?_eq_none (l := f) (by omega),
      List.getElem?_replicate]
    split <;> rfl

theorem getD_resize (bs : List Byte) (n i : Nat) :
    (resize bs n).getD i 0 = if i < n then bs.getD i 0 else 0 := by
  by_cases h : i < n
  · rw [if_pos h, resize, getD_append_zeros, getD_take _ _ _ h]
  · rw [if_neg h, getD_of_length_le _ _ (by rw [length_resize]; omega)]

theorem getD_placeAt (f b : List Byte) (off i : Nat) :
    (placeAt f b off).getD i 0
      = if off ≤ i ∧ i < off + b.length then b.getD (i - off) 0 else f.getD i 0 := by
  have hpl : off ≤ (f ++ List.replicate (off - f.length) 0).length := by
    simp only [List.length_append, List.length_replicate]
    omega
  rw [placeAt, getD_writeBytes _ _ _ _ hpl, getD_append_zeros]

theorem length_placeAt (f b : List Byte) (off : Nat) :
    (placeAt f b off).length = max f.length (off + b.length) := by
  have hpl : off ≤ (f ++ List.replicate (off - f.length) 0).length := by
    simp only [List.length_append, List.length_replicate]
    omega
  rw [placeAt, length_writeBytes_max _ _ _ hpl]
  simp only [List.length_append, List.length_replicate]
  omega

/-- What a `WriteAt` that returns nil leaves in the file. -/
theorem WriteAt_done (limit : Nat) (f b g : List Byte) (off : Int)
    (h : WriteAt limit f b off = .done g) :
    0 ≤ off ∧ f.length ≤ g.length ∧ g.length ≤ max f.length (off.toNat + b.length) ∧
      (b.length ≠ 0 → off.toNat + b.length ≤ g.length) ∧
      ∀ i, g.getD i 0
        = if off.toNat ≤ i ∧ i < off.toNat + b.length then b.getD (i - off.toNat) 0
          else f.getD i 0 := by
  unfold WriteAt at h
  split at h
  · simp at h
  · rename_i hoff
    split at h
    · rename_i hb
      simp only [Written.done.injEq] at h
      subst h
      refine ⟨by omega, Nat.le_refl _, by omega, fun hne => absurd hb hne, ?_⟩
      intro i
      rw [if_neg (by omega)]
    · split at h
      · simp at h
      · split at h
        · simp only [Written.done.injEq] at h
          subst h
          have hl := length_placeAt f b off.toNat
          refine ⟨by omega, by omega, by omega, fun _ => by omega, ?_⟩
          intro i
          exact getD_placeAt f b off.toNat i
        · split at h <;> simp at h

/-- A write that fits returns nil. -/
theorem WriteAt_fits (limit : Nat) (f : List Byte) (d : wasmData) (h : d.fits limit) :
    ∃ g, WriteAt limit f d.Data d.Offset = .done g := by
  obtain ⟨h0, h63, hne⟩ := h
  unfold WriteAt
  rw [if_neg (by omega)]
  by_cases hb : d.Data.length = 0
  · exact ⟨f, by rw [if_pos hb]⟩
  · obtain ⟨h1, h2⟩ := hne hb
    refine ⟨placeAt f d.Data d.Offset.toNat, ?_⟩
    rw [if_neg hb, if_neg (by omega), if_pos h1]

theorem loop_append (limit : Nat) (xs ys : List wasmData) : ∀ f,
    writeMemInitData.loop limit f (xs ++ ys)
      = match writeMemInitData.loop limit f xs with
        | .done g => writeMemInitData.loop limit g ys
        | .failed g => .failed g := by
  induction xs with
  | nil => intro f; rfl
  | cons d xs ih =>
    intro f
    simp only [List.cons_append, writeMemInitData.loop]
    cases WriteAt limit f d.Data d.Offset with
    | done f1 => exact ih f1
    | failed f1 => rfl

/-- When every segment fits, the loop of `writeMemInitData` returns nil. -/
theorem loop_total (limit : Nat) (ds : List wasmData) : ∀ f, (∀ d ∈ ds, d.fits limit) →
    ∃ g, writeMemInitData.loop limit f ds = .done g := by
  induction ds with
  | nil => intro f _; exact ⟨f, rfl⟩
  | cons d ds ih =>
    intro f h
    obtain ⟨f1, h1⟩ := WriteAt_fits limit f d (h d (List.mem_cons_self _ _))
    obtain ⟨g, hg⟩ := ih f1 (fun e he => h e (List.mem_cons_of_mem _ he))
    exact ⟨g, by simp only [writeMemInitData.loop, h1, hg]⟩

/-- A loop that returns nil never shortens the file, and leaves every position
that none of its segments covers as it was (zero past the old end of the
file). -/
theorem loop_uncovered (limit : Nat) (ds : List wasmData) : ∀ f g,
    writeMemInitData.loop limit f ds = .done g →
    f.length ≤ g.length ∧
      ∀ i, (∀ e ∈ ds, ¬ e.covers i) → g.getD i 0 = f.getD i 0 := by
  induction ds with
  | nil =>
    intro f g h
    simp only [writeMemInitData.loop, Written.done.injEq] at h
    rw [h]
    exact ⟨Nat.le_refl _, fun _ _ => rfl⟩
  | cons d ds ih =>
    intro f g h
    simp only [writeMemInitData.loop] at h
    cases hw : WriteAt limit f d.Data d.Offset with
    | failed f1 => rw [hw] at h; simp at h
    | done f1 =>
      rw [hw] at h
      obtain ⟨hd0, hl1, _, _, hg1⟩ := WriteAt_done limit f d.Data f1 d.Offset hw
      obtain ⟨hl, hu⟩ := ih f1 g h
      refine ⟨by omega, ?_⟩
      intro i hi
      rw [hu i (fun e he => hi e (List.mem_cons_of_mem _ he)), hg1 i]
      have hc := hi d (List.mem_cons_self _ _)
      simp only [wasmData.covers] at hc
      rw [if_neg (by omega)]

theorem getElem?_of_getD (l : List Byte) (i : Nat) (h : i < l.length) :
    l[i]? = some (l.getD i 0) := by
  simp only [List.getD_eq_getElem?_getD, List.getElem?_eq_getElem h, Option.getD_some]

/-- C14, amended. Snapshot segments are last-write-wins when every write is
accepted: for every list of segments with non-negative offsets in which every
segment with bytes ends within the largest file size of the system (and every
offset is below `2^63`), `writeMemInitData` (which starts from an empty file)
returns nil, and the content of the file has, at every position `i` covered by
at least one segment, the byte `data[i - offset]` of the last segment in list
order whose range `[offset, offset + len(data))` contains `i`, and a zero byte
at every position below the length of the file that no segment covers. -/
theorem snapshot_last_write_wins (limit : Nat) (segs : List wasmData)
    (hfit : ∀ d ∈ segs, d.fits limit) :
    ∃ file, writeMemInitData limit segs = .done file ∧
      (∀ pre d post i, segs = pre ++ d :: post → d.covers i → (∀ e ∈ post, ¬ e.covers i) →
        i < file.length ∧ file[i]? = d.Data[i - d.Offset.toNat]?) ∧
      (∀ i, i < file.length → (∀ e ∈ segs, ¬ e.covers i) → file[i]? = some 0) := by
  obtain ⟨file, hfile⟩ := loop_total limit segs [] hfit
  refine ⟨file, hfile, ?_, ?_⟩
  · intro pre d post i hs hc hpost
    subst hs
    obtain ⟨f1, hf1⟩ := loop_total limit pre [] (fun e he => hfit e (List.mem_append_left _ he))
    obtain ⟨f2, hw⟩ := WriteAt_fits limit f1 d
      (hfit d (List.mem_append_right _ (List.mem_cons_self _ _)))
    obtain ⟨hd0, _, _, hlen2, hg2⟩ := WriteAt_done limit f1 d.Data f2 d.Offset hw
    rw [loop_append, hf1] at hfile
    simp only [writeMemInitData.loop, hw] at hfile
    obtain ⟨hl, hu⟩ := loop_uncovered limit post f2 file hfile
    simp only [wasmData.covers] at hc
    have hne : d.Data.length ≠ 0 := by omega
    have hi : i < file.length := by
      have := hlen2 hne
      omega
    refine ⟨hi, ?_⟩
    rw [getElem?_of_getD file i hi, hu i hpost, hg2 i, if_pos ⟨by omega, by omega⟩,
      getElem?_of_getD d.Data _ (by omega)]
  · intro i hi hn
    obtain ⟨_, hu⟩ := loop_uncovered limit segs [] file hfile
    rw [getElem?_of_getD file i hi, hu i hn]
    rfl

/-- Witness of C14 amended: four overlapping segments, one of them empty and
past the end of the others, on a system whose largest file has `2^40` bytes. -/
theorem snapshot_last_write_wins_witness :
    ∃ file, writeMemInitData (2 ^ 40) [⟨2, [1, 2, 3]⟩, ⟨3, [9]⟩, ⟨9, []⟩, ⟨6, [4]⟩]
        = .done file ∧
      (3 < file.length ∧ file[3]? = ([9] : List Byte)[3 - (3 : Int).toNat]?) ∧
      (4 < file.length ∧ file[4]? = ([1, 2, 3] : List Byte)[4 - (2 : Int).toNat]?) ∧
      (5 < file.length → file[5]? = some 0) :=
  match snapshot_last_write_wins (2 ^ 40) [⟨2, [1, 2, 3]⟩, ⟨3, [9]⟩, ⟨9, []⟩, ⟨6, [4]⟩]
    (by decide) with
  | ⟨file, h1, h2, h3⟩ =>
    ⟨file, h1,
      h2 [⟨2, [1, 2, 3]⟩] ⟨3, [9]⟩ [⟨9, []⟩, ⟨6, [4]⟩] 3 rfl (by decide) (by decide),
      h2 [] ⟨2, [1, 2, 3]⟩ [⟨3, [9]⟩, ⟨9, []⟩, ⟨6, [4]⟩] 4 rfl (by decide) (by decide),
      fun h => h3 5 h (by decide)⟩

/-- Counterexample to C14 as stated: the offsets `2^63 - 1` and 0 are
non-negative, but the write of one byte at `2^63 - 1` would end at `2^63` and
is refused, on a system with the largest file size there can be; the function
returns the error at once and leaves the empty file, so position 0, which the
second segment covers, holds no byte. -/
theorem snapshot_last_write_wins_counterexample :
    writeMemInitData (2 ^ 63 - 1) [⟨2 ^ 63 - 1, [1]⟩, ⟨0, [5]⟩] = .failed [] ∧
      wasmData.covers ⟨0, [5]⟩ 0 ∧ ([] : List Byte)[0]? ≠ ([5] : List Byte)[0]? := by
  refine ⟨?_, by decide, by decide⟩
  simp only [writeMemInitData, writeMemInitData.loop, WriteAt]
  rw [if_neg (by decide), if_neg (by decide), if_pos (by decide)]

/-- The file cut or padded to `N` bytes is the segments applied to the start
file cut or padded to `N` bytes, as long as every segment ends within `N`. -/
theorem loop_refines_apply (limit N : Nat) (ds : List wasmData) : ∀ f g, f.length ≤ N →
    (∀ d ∈ ds, d.Offset + (d.Data.length : Int) ≤ (N : Int)) →
    writeMemInitData.loop limit f ds = .done g →
    g.length ≤ N ∧ resize g N = applySegments (resize f N) ds := by
  induction ds with
  | nil =>
    intro f g hf _ h
    simp only [writeMemInitData.loop, Written.done.injEq] at h
    rw [← h]
    exact ⟨hf, rfl⟩
  | cons d ds ih =>
    intro f g hf hd h
    have hdN := hd d (List.mem_cons_self _ _)
    simp only [writeMemInitData.loop] at h
    cases hw : WriteAt limit f d.Data d.Offset with
    | failed f1 => rw [hw] at h; simp at h
    | done f1 =>
      rw [hw] at h
      obtain ⟨hd0, _, hmax, _, hg1⟩ := WriteAt_done limit f d.Data f1 d.Offset hw
      have hf1 : f1.length ≤ N := by omega
      obtain ⟨hgN, hres⟩ := ih f1 g hf1 (fun e he => hd e (List.mem_cons_of_mem _ he)) h
      refine ⟨hgN, ?_⟩
      have hoff : d.Offset.toNat + d.Data.length ≤ (resize f N).length := by
        rw [length_resize]; omega
      have hstep : resize f1 N = writeBytes (resize f N) d.Offset.toNat d.Data := by
        apply ext_getD
        · rw [length_resize, length_writeBytes _ _ _ hoff, length_resize]
        · intro i
          rw [getD_resize, getD_writeBytes _ _ _ _ (by omega), getD_resize, hg1 i]
          rw [length_resize] at hoff
          by_cases hc : d.Offset.toNat ≤ i ∧ i < d.Offset.toNat + d.Data.length
          · rw [if_pos hc, if_pos (by omega), if_pos hc]
          · rw [if_neg hc, if_neg hc]
      rw [hres, hstep]
      rfl

/-- C15, amended. The snapshot file reconstructs the initial image within the
range of `int`: for every page count `n` with `n * 65536` below `2^31`, on a
system that accepts files of `n * 65536` bytes, and for every list of segments
with non-negative offsets, each with `offset + len(data) ≤ n * 65536`,
`writeMemInitData` returns nil and the memory constructed with `n` pages from
the file it wrote, whatever the chunks the reads return, is byte for byte the
buffer obtained by applying the segments in list order to `n * 65536` zero
bytes; the file has no header: byte `i` of the file is byte `i` of the
memory. -/
theorem snapshot_reconstructs_image (limit n : Nat) (segs : List wasmData)
    (chunk : Nat → Nat) (hn : n * 65536 < 2 ^ 31) (hlim : n * 65536 ≤ limit)
    (h : ∀ d ∈ segs, 0 ≤ d.Offset ∧
      d.Offset + (d.Data.length : Int) ≤ ((n * 65536 : Nat) : Int)) :
    ∃ file m, writeMemInitData limit segs = .done file ∧
      ctor n (some ⟨file, chunk⟩) = some m ∧
      m.bytes = applySegments (List.replicate (n * 65536) 0) segs ∧
      (∀ i, i < file.length → m.bytes[i]? = file[i]?) := by
  have hp : PageSize = 65536 := by norm_num [PageSize]
  have hfit : ∀ d ∈ segs, d.fits limit := by
    intro d hd
    obtain ⟨h0, hN⟩ := h d hd
    exact ⟨h0, by omega, fun _ => ⟨by omega, by omega⟩⟩
  obtain ⟨file, hfile⟩ := loop_total limit segs [] hfit
  obtain ⟨hlen, hres⟩ := loop_refines_apply limit (n * 65536) segs [] file (Nat.zero_le _)
    (fun d hd => (h d hd).2) hfile
  have hz : resize ([] : List Byte) (n * 65536) = List.replicate (n * 65536) 0 := by
    simp [resize]
  have hb : ReadFull (List.replicate (n * PageSize) 0) ⟨file, chunk⟩
      = resize file (n * 65536) := by
    rw [ReadFull_zero, hp]
  have hc : ctor n (some ⟨file, chunk⟩)
      = some ⟨ReadFull (List.replicate (n * PageSize) 0) ⟨file, chunk⟩⟩ := by
    simp only [ctor]
    rw [if_pos (by rw [hp]; exact hn)]
  refine ⟨file, ⟨ReadFull (List.replicate (n * PageSize) 0) ⟨file, chunk⟩⟩, hfile, hc,
    ?_, ?_⟩
  · simp only [hb, hres, hz]
  · intro i hi
    simp only [hb, resize]
    rw [List.getElem?_append_left (by simp only [List.length_take]; omega),
      List.getElem?_take_of_lt (by omega)]

/-- Witness of C15 amended: two overlapping segments within one page, on a
system whose largest file has `2^40` bytes. -/
theorem snapshot_reconstructs_image_witness :
    ∃ file m, writeMemInitData (2 ^ 40) [⟨2, [1, 2, 3]⟩, ⟨3, [9]⟩] = .done file ∧
      ctor 1 (some ⟨file, fun k => k⟩) = some m ∧
      m.bytes = applySegments (List.replicate (1 * 65536) 0) [⟨2, [1, 2, 3]⟩, ⟨3, [9]⟩] ∧
      (∀ i, i < file.length → m.bytes[i]? = file[i]?) :=
  snapshot_reconstructs_image (2 ^ 40) 1 [⟨2, [1, 2, 3]⟩, ⟨3, [9]⟩] (fun k => k)
    (by decide) (by decide) (by decide)

/-- Counterexample to C15 as stated: with the page count 32768 the segment of
one byte at offset 0 ends within `32768 * 65536`, and `writeMemInitData` writes
the one-byte file; but `32768 * PageSize` is `2^31`, no `int`, and no memory is
constructed from the file. -/
theorem snapshot_reconstructs_image_counterexample :
    (∀ d ∈ [(⟨0, [7]⟩ : wasmData)], 0 ≤ d.Offset ∧
      d.Offset + (d.Data.length : Int) ≤ ((32768 * 65536 : Nat) : Int)) ∧
      writeMemInitData (2 ^ 40) [⟨0, [7]⟩] = .done [7] ∧
      ctor 32768 (some ⟨[7], fun k => k⟩) = none := by
  refine ⟨by decide, by decide, ?_⟩
  simp only [ctor]
  rw [if_neg (by decide)]

/-! ## Signed and unsigned readings, and the decoded descriptor -/

theorem storeInt8_loadUint8 (m : Mem) (addr v : Int) (h0 : 0 ≤ addr)
    (h : addr + 1 ≤ (m.bytes.length : Int)) :
    ∃ m1, StoreInt8 m addr v = .ok m1 ∧ LoadUint8 m1 addr = .ok (toUnsigned 8 v) := by
  have hr : inRange m addr = true := (inRange_iff m addr).2 ⟨h0, by omega⟩
  have hlt : addr.toNat < m.bytes.length := by omega
  refine ⟨⟨m.bytes.set addr.toNat ⟨toUnsigned 8 v % 256, Nat.mod_lt _ (by decide)⟩⟩,
    by simp only [StoreInt8, hr, if_true], ?_⟩
  have hr1 : inRange ⟨m.bytes.set addr.toNat
      ⟨toUnsigned 8 v % 256, Nat.mod_lt _ (by decide)⟩⟩ addr = true := by
    rw [inRange_iff]
    simp only [List.length_set]
    exact ⟨h0, by omega⟩
  have hu : toUnsigned 8 v % 256 = toUnsigned 8 v :=
    Nat.mod_eq_of_lt (by simpa using toUnsigned_lt 8 v)
  rw [LoadUint8, if_pos hr1]
  simp only [List.get?_eq_getElem?, List.getElem?_set_self hlt, hu]

theorem toUnsigned_eq_emod (w : Nat) (v : Int) : ((toUnsigned w v : Nat) : Int) = v % 2 ^ w := by
  unfold toUnsigned
  exact Int.toNat_of_nonneg (Int.emod_nonneg v (by positivity))

/-- C16. Signed and unsigned loads read the same bits: for every memory state
and every address with `0 ≤ addr`, after `StoreInt32(addr, v)` with `v` an
`int32` and `addr + 4 ≤ bytes.length`, `LoadInt32(addr)` is `v` and
`LoadUint32(addr)` is `v mod 2^32`; after `StoreInt16(addr, v)` with
`addr + 2 ≤ bytes.length`, `LoadUint16(addr)` is `v mod 2^16`; after
`StoreInt8(addr, v)` with `addr + 1 ≤ bytes.length`, `LoadUint8(addr)` is
`v mod 2^8`. -/
theorem signed_unsigned_same_bits (m : Mem) (addr v : Int) (h0 : 0 ≤ addr) :
    (addr + 4 ≤ (m.bytes.length : Int) → -2 ^ 31 ≤ v → v < 2 ^ 31 →
      ∃ m1 u, StoreInt32 m addr v = .ok m1 ∧ LoadInt32 m1 addr = .ok v ∧
        LoadUint32 m1 addr = .ok u ∧ (u : Int) = v % 2 ^ 32) ∧
    (addr + 2 ≤ (m.bytes.length : Int) → -2 ^ 15 ≤ v → v < 2 ^ 15 →
      ∃ m1 u, StoreInt16 m addr v = .ok m1 ∧ LoadUint16 m1 addr = .ok u ∧
        (u : Int) = v % 2 ^ 16) ∧
    (addr + 1 ≤ (m.bytes.length : Int) → -2 ^ 7 ≤ v → v < 2 ^ 7 →
      ∃ m1 u, StoreInt8 m addr v = .ok m1 ∧ LoadUint8 m1 addr = .ok u ∧
        (u : Int) = v % 2 ^ 8) := by
  refine ⟨?_, ?_, ?_⟩
  · intro h h1 h2
    obtain ⟨m1, hs, _, hl⟩ := storeRaw_loadRaw m addr 4 (toUnsigned 32 v) (by decide) h0 h
    have hu : toUnsigned 32 v % 256 ^ 4 = toUnsigned 32 v :=
      Nat.mod_eq_of_lt (by simpa using toUnsigned_lt 32 v)
    rw [hu] at hl
    refine ⟨m1, toUnsigned 32 v, hs, ?_, hl, toUnsigned_eq_emod 32 v⟩
    simp only [LoadInt32, hl, Outcome.map]
    rw [toSigned_toUnsigned32 v h1 h2]
  · intro h _ _
    obtain ⟨m1, hs, _, hl⟩ := storeRaw_loadRaw m addr 2 (toUnsigned 16 v) (by decide) h0 h
    have hu : toUnsigned 16 v % 256 ^ 2 = toUnsigned 16 v :=
      Nat.mod_eq_of_lt (by simpa using toUnsigned_lt 16 v)
    rw [hu] at hl
    exact ⟨m1, toUnsigned 16 v, hs, hl, toUnsigned_eq_emod 16 v⟩
  · intro h _ _
    obtain ⟨m1, hs, hl⟩ := storeInt8_loadUint8 m addr v h0 h
    exact ⟨m1, toUnsigned 8 v, hs, hl, toUnsigned_eq_emod 8 v⟩

/-- Witness of C16: the value `-1` stored at address 1 of a six-byte buffer. -/
theorem signed_unsigned_same_bits_witness :
    (∃ m1 u, StoreInt32 ⟨[1, 2, 3, 4, 5, 6]⟩ 1 (-1) = .ok m1 ∧ LoadInt32 m1 1 = .ok (-1) ∧
        LoadUint32 m1 1 = .ok u ∧ (u : Int) = 4294967295) ∧
    (∃ m1 u, StoreInt16 ⟨[1, 2, 3, 4, 5, 6]⟩ 1 (-1) = .ok m1 ∧ LoadUint16 m1 1 = .ok u ∧
        (u : Int) = 65535) ∧
    (∃ m1 u, StoreInt8 ⟨[1, 2, 3, 4, 5, 6]⟩ 1 (-1) = .ok m1 ∧ LoadUint8 m1 1 = .ok u ∧
        (u : Int) = 255) :=
  have t := signed_unsigned_same_bits ⟨[1, 2, 3, 4, 5, 6]⟩ 1 (-1) (by decide)
  ⟨t.1 (by decide) (by decide) (by decide),
    t.2.1 (by decide) (by decide) (by decide),
    t.2.2 (by decide) (by decide) (by decide)⟩

/-- C17. LoadSliceDirectly is LoadSlice with a decoded descriptor: for every
memory state and every address with `0 ≤ addr` and `addr + 16 ≤ bytes.length`,
the two 64-bit loads of the descriptor return, and when the length word
`L = LoadInt64(addr + 8)` fits in `int32`, `LoadSlice(addr)` and
`LoadSliceDirectly(LoadInt64(addr), L)` have the same outcome: both fail with
the same error or both return the same view (same buffer, offset and count). -/
theorem loadSliceDirectly_same (m : Mem) (addr : Int) (hlen : m.bytes.length < 2 ^ 31)
    (h0 : 0 ≤ addr) (h : addr + 16 ≤ (m.bytes.length : Int)) :
    ∃ a L, LoadInt64 m addr = .ok a ∧ LoadInt64 m (addr + 8) = .ok L ∧
      (-2 ^ 31 ≤ L → L < 2 ^ 31 → LoadSlice m addr = LoadSliceDirectly m a L) := by
  have hr : inRange m addr = true := (inRange_iff m addr).2 ⟨h0, by omega⟩
  have hr8 : inRange m (addr + 8) = true := (inRange_iff m (addr + 8)).2 ⟨by omega, by omega⟩
  have hw : wrap32 (addr + 8) = addr + 8 :=
    wrap32_of_range _ (by norm_num; omega) (by norm_num at hlen ⊢; omega)
  have ha : LoadInt64 m addr
      = .ok (toSigned 64 (leDecode (readBytes m.bytes addr.toNat 8))) := by
    simp only [LoadInt64, loadRaw, hr, if_true]
    rw [if_pos (by omega)]
    rfl
  have hL : LoadInt64 m (addr + 8)
      = .ok (toSigned 64 (leDecode (readBytes m.bytes (addr + 8).toNat 8))) := by
    simp only [LoadInt64, loadRaw, hr8, if_true]
    rw [if_pos (by omega)]
    rfl
  refine ⟨_, _, ha, hL, ?_⟩
  intro h1 h2
  simp only [LoadSlice, LoadSliceDirectly, ha, hw, hL, Outcome.bind]
  rw [wrap32_of_range _ h1 h2]

/-- Witness of C17: a sixteen-byte buffer holding the descriptor (offset 2,
length 3). -/
theorem loadSliceDirectly_same_witness :
    ∃ a L, LoadInt64 ⟨[2, 0, 0, 0, 0, 0, 0, 0, 3, 0, 0, 0, 0, 0, 0, 0]⟩ 0 = .ok a ∧
      LoadInt64 ⟨[2, 0, 0, 0, 0, 0, 0, 0, 3, 0, 0, 0, 0, 0, 0, 0]⟩ (0 + 8) = .ok L ∧
      LoadSlice ⟨[2, 0, 0, 0, 0, 0, 0, 0, 3, 0, 0, 0, 0, 0, 0, 0]⟩ 0
        = LoadSliceDirectly ⟨[2, 0, 0, 0, 0, 0, 0, 0, 3, 0, 0, 0, 0, 0, 0, 0]⟩ a L :=
  match loadSliceDirectly_same ⟨[2, 0, 0, 0, 0, 0, 0, 0, 3, 0, 0, 0, 0, 0, 0, 0]⟩ 0
    (by decide) (by decide) (by decide) with
  | ⟨a, L, h1, h2, h3⟩ =>
    have hL : L = 3 := Outcome.ok.inj (h2.symm.trans (by decide))
    ⟨a, L, h1, h2, h3 (by rw [hL]; decide) (by rw [hL]; decide)⟩


/-! ## Oversized growth -/

/-- A `Grow` that returns leaves a buffer whose length is below `2^31` and
congruent modulo `2^32` to the product asked for. -/
theorem grow_ok_length (m m1 : Mem) (delta r : Int) (h : Grow m delta = .ok (r, m1)) :
    (m1.bytes.length : Int) < 2 ^ 31 ∧
      (m1.bytes.length : Int) % 2 ^ 32 = ((m.Size + delta) * 65536) % 2 ^ 32 := by
  have hp : ((PageSize : Nat) : Int) = 65536 := by norm_num [PageSize]
  unfold Grow at h
  simp only at h
  split at h
  · simp at h
  · rename_i hneg
    simp only [Outcome.ok.injEq, Prod.mk.injEq] at h
    rw [← h.2]
    simp only [length_resize]
    rw [hp] at hneg ⊢
    generalize m.Size + delta = x at hneg ⊢
    unfold wrap32 at hneg ⊢
    norm_num at hneg ⊢
    omega

/-- C18, amended. Oversized growth that wraps to a negative 32-bit length fails:
for every memory state and every `deltaPages` (non-negative or not) for which
`(Size() + deltaPages) * 65536` is at least `2^31` and below `2^32`,
`Grow(deltaPages)` raises the argument-out-of-range error of `Array.Resize` and
leaves the buffer unchanged; and whenever `Grow` completes normally the length
of the buffer is below `2^31` and congruent to `(Size() + deltaPages) * 65536`
modulo `2^32`. -/
theorem grow_oversized (m : Mem) (delta : Int)
    (hlo : 2 ^ 31 ≤ (m.Size + delta) * 65536) (hhi : (m.Size + delta) * 65536 < 2 ^ 32) :
    Grow m delta = .throws .argumentOutOfRange ∧ Op.after m (.Grow delta) = some m ∧
      ∀ d r m1, Grow m d = .ok (r, m1) → (m1.bytes.length : Int) < 2 ^ 31 ∧
        (m1.bytes.length : Int) % 2 ^ 32 = ((m.Size + d) * 65536) % 2 ^ 32 := by
  have hp : ((PageSize : Nat) : Int) = 65536 := by norm_num [PageSize]
  have hs := Size_nonneg m
  have hg : Grow m delta = .throws .argumentOutOfRange := by
    simp only [Grow, hp]
    norm_num at hlo hhi
    rw [wrap32_of_range (m.Size + delta) (by norm_num; omega) (by norm_num; omega)]
    rw [if_pos]
    generalize (m.Size + delta) * 65536 = x at hlo hhi
    unfold wrap32
    norm_num
    omega
  refine ⟨hg, ?_, fun d r m1 h => grow_ok_length m m1 d r h⟩
  simp only [Op.after, Op.exec, hg, Outcome.map]

/-- Witness of C18 amended: the empty memory asked to grow by 32768 pages, that
is by `2^31` bytes. -/
theorem grow_oversized_witness :
    Grow ⟨[]⟩ 32768 = .throws .argumentOutOfRange ∧
      Op.after ⟨[]⟩ (.Grow 32768) = some ⟨[]⟩ :=
  have t := grow_oversized ⟨[]⟩ 32768 (by decide) (by decide)
  ⟨t.1, t.2.1⟩

/-- Counterexample to C18 as stated: on a memory of one page, `Grow(65535)` asks
for `2^32` bytes, more than `2^31 - 1`; the call reports no failure, it returns
1 and leaves a buffer of length 0, which is not `(1 + 65535) * 65536`. -/
theorem grow_oversized_counterexample :
    (Size ⟨List.replicate 65536 0⟩ + 65535) * 65536 > 2 ^ 31 - 1 ∧
      Grow ⟨List.replicate 65536 0⟩ 65535 = .ok (1, ⟨[]⟩) ∧
      (∀ e, Grow ⟨List.replicate 65536 0⟩ 65535 ≠ .throws e) ∧
      ((([] : List Byte).length : Nat) : Int)
        ≠ (Size ⟨List.replicate 65536 0⟩ + 65535) * 65536 := by
  have hg := grow_one_page_wraps (List.replicate 65536 0) (List.length_replicate _ _)
  refine ⟨?_, hg.2, ?_, ?_⟩
  · rw [hg.1]; decide
  · intro e
    rw [hg.2]
    exact fun hc => Outcome.noConfusion hc
  · rw [hg.1]; decide


/-! ## The low 32 bits of a descriptor -/

theorem leDecode_append (xs ys : List Byte) :
    leDecode (xs ++ ys) = leDecode xs + 256 ^ xs.length * leDecode ys := by
  induction xs with
  | nil => simp [leDecode]
  | cons b xs ih =>
    rw [List.cons_append, leDecode, leDecode, ih, List.length_cons, pow_succ]
    ring

theorem length_readBytes (bs : List Byte) (a k : Nat) (h : a + k ≤ bs.length) :
    (readBytes bs a k).length = k := by
  simp only [readBytes, List.length_take, List.length_drop]
  omega

theorem readBytes_add (bs : List Byte) (a j k : Nat) :
    readBytes bs a (j + k) = readBytes bs a j ++ readBytes bs (a + j) k := by
  simp only [readBytes, List.take_add, List.drop_drop]

/-- The `(int)` conversion of a 64-bit word sees only its four low bytes. -/
theorem wrap32_word (bs : List Byte) (a : Nat) (h : a + 8 ≤ bs.length) :
    wrap32 (toSigned 64 (leDecode (readBytes bs a 8)))
      = wrap32 ((leDecode (readBytes bs a 4) : Nat) : Int) := by
  have h8 : readBytes bs a 8 = readBytes bs a 4 ++ readBytes bs (a + 4) 4 :=
    readBytes_add bs a 4 4
  rw [h8, leDecode_append, length_readBytes bs a 4 (by omega)]
  generalize leDecode (readBytes bs a 4) = lo
  generalize leDecode (readBytes bs (a + 4) 4) = hi
  unfold toSigned wrap32
  push_cast
  norm_num
  split <;> omega

theorem LoadInt64_ok (m : Mem) (addr : Int) (h0 : 0 ≤ addr)
    (h : addr + 8 ≤ (m.bytes.length : Int)) :
    LoadInt64 m addr = .ok (toSigned 64 (leDecode (readBytes m.bytes addr.toNat 8))) := by
  have hr : inRange m addr = true := (inRange_iff m addr).2 ⟨h0, by omega⟩
  simp only [LoadInt64, loadRaw, hr, if_true]
  rw [if_pos (by omega)]
  rfl

theorem readBytes_congr (bs bs1 : List Byte) (a k : Nat)
    (h : ∀ i, a ≤ i → i < a + k → bs1[i]? = bs[i]?) :
    readBytes bs1 a k = readBytes bs a k := by
  apply List.ext_getElem?
  intro i
  rw [getElem?_readBytes, getElem?_readBytes]
  by_cases hi : i < k
  · rw [if_pos hi, if_pos hi, h (a + i) (by omega) (by omega)]
  · rw [if_neg hi, if_neg hi]

/-- `LoadSlice` as a function of the four low bytes of each descriptor word. -/
theorem LoadSlice_low (m : Mem) (addr : Int) (hlen : m.bytes.length < 2 ^ 31)
    (h0 : 0 ≤ addr) (h : addr + 16 ≤ (m.bytes.length : Int)) :
    LoadSlice m addr = newArraySegment m.bytes
      (wrap32 ((leDecode (readBytes m.bytes addr.toNat 4) : Nat) : Int))
      (wrap32 ((leDecode (readBytes m.bytes (addr.toNat + 8) 4) : Nat) : Int)) := by
  have hw : wrap32 (addr + 8) = addr + 8 :=
    wrap32_of_range _ (by norm_num; omega) (by norm_num at hlen ⊢; omega)
  have h8 : (addr + 8).toNat = addr.toNat + 8 := by omega
  simp only [LoadSlice, hw, LoadInt64_ok m addr h0 (by omega),
    LoadInt64_ok m (addr + 8) (by omega) (by omega), Outcome.bind, h8]
  rw [wrap32_word _ _ (by omega), wrap32_word _ _ (by omega)]


/-- C19. LoadSlice uses only the low 32 bits of the descriptor: for every
address with `0 ≤ addr` and `addr + 16 ≤ bytes.length` and every two memory
states of the same length that agree everywhere except in the high four bytes
of the 64-bit words at `addr` and at `addr + 8` (bytes `addr+4..addr+7` and
`addr+12..addr+15`), `LoadSlice(addr)` has the same outcome in both as far as
the offset and the count go (the same error, or the same offset and count), and
when the range referenced lies outside those bytes the contents of the two
views are equal; and a descriptor offset of `s + 2^32` is accepted and treated
as `s`. -/
theorem loadSlice_low_32_bits (m m' : Mem) (addr s len : Int)
    (hlen : m.bytes.length < 2 ^ 31) (h0 : 0 ≤ addr)
    (h : addr + 16 ≤ (m.bytes.length : Int)) (hl : m'.bytes.length = m.bytes.length)
    (hag : ∀ i : Nat, ¬ (addr + 4 ≤ (i : Int) ∧ (i : Int) < addr + 8) →
      ¬ (addr + 12 ≤ (i : Int) ∧ (i : Int) < addr + 16) → m'.bytes[i]? = m.bytes[i]?)
    (hs : 0 ≤ s) (hc : 0 ≤ len) (hsl : s + len ≤ (m.bytes.length : Int)) :
    ((LoadSlice m addr).map fun v => (v.offset, v.count))
        = ((LoadSlice m' addr).map fun v => (v.offset, v.count)) ∧
      (∀ v v', LoadSlice m addr = .ok v → LoadSlice m' addr = .ok v' →
        (∀ i : Nat, v.offset ≤ (i : Int) → (i : Int) < v.offset + v.count →
          ¬ (addr + 4 ≤ (i : Int) ∧ (i : Int) < addr + 8) ∧
          ¬ (addr + 12 ≤ (i : Int) ∧ (i : Int) < addr + 16)) →
        v'.contents = v.contents) ∧
      ∃ m1 m2 v, StoreInt64 m addr (s + 2 ^ 32) = .ok m1 ∧
        StoreInt64 m1 (addr + 8) len = .ok m2 ∧ LoadSlice m2 addr = .ok v ∧
        v.offset = s ∧ v.count = len := by
  have e1 : readBytes m'.bytes addr.toNat 4 = readBytes m.bytes addr.toNat 4 :=
    readBytes_congr _ _ _ _ (fun i h1 h2 => hag i (by omega) (by omega))
  have e2 : readBytes m'.bytes (addr.toNat + 8) 4 = readBytes m.bytes (addr.toNat + 8) 4 :=
    readBytes_congr _ _ _ _ (fun i h1 h2 => hag i (by omega) (by omega))
  have hm := LoadSlice_low m addr hlen h0 h
  have hm' := LoadSlice_low m' addr (by rw [hl]; exact hlen) h0 (by rw [hl]; exact h)
  rw [e1, e2] at hm'
  generalize wrap32 ((leDecode (readBytes m.bytes addr.toNat 4) : Nat) : Int) = o at hm hm'
  generalize wrap32 ((leDecode (readBytes m.bytes (addr.toNat + 8) 4) : Nat) : Int) = c
    at hm hm'
  refine ⟨?_, ?_, ?_⟩
  · rw [hm, hm']
    simp only [newArraySegment, hl]
    split
    · rfl
    · split <;> rfl
  · intro v v' hv hv' hout
    rw [hm] at hv
    rw [hm'] at hv'
    simp only [newArraySegment, hl] at hv hv'
    split at hv
    · simp at hv
    · rename_i hneg
      rw [if_neg hneg] at hv'
      split at hv
      · simp at hv
      · rename_i hfit
        rw [if_neg hfit] at hv'
        simp only [Outcome.ok.injEq] at hv hv'
        subst hv
        subst hv'
        simp only [ArraySegment.contents]
        simp only at hout
        apply readBytes_congr
        intro i hi1 hi2
        have := hout i (by omega) (by omega)
        exact hag i this.1 this.2
  · obtain ⟨m1, m2, h1, h2, hlen2, hx, hy, _⟩ := descriptor_round_trip m addr (s + 2 ^ 32) len
      hlen h0 h (by norm_num at hlen ⊢; omega) (by norm_num at hlen ⊢; omega)
    have hws : wrap32 (s + 2 ^ 32) = s := by
      unfold wrap32
      norm_num at hlen ⊢
      omega
    have hwl : wrap32 len = len :=
      wrap32_of_range _ (by norm_num; omega) (by norm_num at hlen ⊢; omega)
    refine ⟨m1, m2, ⟨m2.bytes, s, len⟩, h1, h2, ?_, rfl, rfl⟩
    simp only [LoadSlice, hx, hy, Outcome.bind, hws, hwl, newArraySegment, hlen2]
    rw [if_neg (by omega), if_neg (by omega)]

/-- Witness of C19: two sixteen-byte buffers whose descriptors at address 0
differ in the high bytes only (offset 8 against `8 + 2^32`, and a count of 4
against `4 + 2^56`). -/
theorem loadSlice_low_32_bits_witness :
    ((LoadSlice ⟨[8, 0, 0, 0, 0, 0, 0, 0, 4, 0, 0, 0, 0, 0, 0, 0]⟩ 0).map
        fun v => (v.offset, v.count))
      = ((LoadSlice ⟨[8, 0, 0, 0, 1, 0, 0, 0, 4, 0, 0, 0, 0, 0, 0, 1]⟩ 0).map
        fun v => (v.offset, v.count)) ∧
    ArraySegment.contents ⟨[8, 0, 0, 0, 1, 0, 0, 0, 4, 0, 0, 0, 0, 0, 0, 1], 8, 4⟩
      = ArraySegment.contents ⟨[8, 0, 0, 0, 0, 0, 0, 0, 4, 0, 0, 0, 0, 0, 0, 0], 8, 4⟩ ∧
    ∃ m1 m2 v, StoreInt64 ⟨[8, 0, 0, 0, 0, 0, 0, 0, 4, 0, 0, 0, 0, 0, 0, 0]⟩ 0 (8 + 2 ^ 32)
        = .ok m1 ∧
      StoreInt64 m1 (0 + 8) 4 = .ok m2 ∧ LoadSlice m2 0 = .ok v ∧
      v.offset = 8 ∧ v.count = 4 :=
  have t := loadSlice_low_32_bits ⟨[8, 0, 0, 0, 0, 0, 0, 0, 4, 0, 0, 0, 0, 0, 0, 0]⟩
    ⟨[8, 0, 0, 0, 1, 0, 0, 0, 4, 0, 0, 0, 0, 0, 0, 1]⟩ 0 8 4 (by decide) (by decide)
    (by decide) (by decide)
    (by
      intro i h1 h2
      have hi : i < 4 ∨ (8 ≤ i ∧ i < 12) ∨ 16 ≤ i := by omega
      rcases hi with hi | ⟨hi1, hi2⟩ | hi
      · interval_cases i <;> rfl
      · interval_cases i <;> rfl
      · rw [List.getElem?_eq_none (by simpa using hi),
          List.getElem?_eq_none (by simpa using hi)])
    (by decide) (by decide) (by decide)
  ⟨t.1,
    t.2.1 ⟨[8, 0, 0, 0, 0, 0, 0, 0, 4, 0, 0, 0, 0, 0, 0, 0], 8, 4⟩
      ⟨[8, 0, 0, 0, 1, 0, 0, 0, 4, 0, 0, 0, 0, 0, 0, 1], 8, 4⟩ (by decide) (by decide)
      (by
        intro i h1 h2
        simp only at h1 h2
        omega),
    t.2.2⟩

end Mem
